import Mathlib

/-!
Verification of the secp256k1-voi library (Go) against its natural-language
specification, via a shallow embedding of the library's value-level semantics
in Lean 4.

Conventions of the embedding:
* Machine integers and byte strings are modelled as `Nat` / `List Nat`, with
  explicit reductions `% 2^w` where limb overflow matters.
* The fiat-crypto Montgomery limb arithmetic (internal/fiat) is modelled at the
  value level, per the documented contract of each operation: a `Scalar` is an
  integer in `[0, n)`, a field `Element` an integer in `[0, p)`, and each
  arithmetic method is the corresponding operation `% n` or `% p`.
* Stateful Go methods become pure functions; fallible ones return `Option`
  or a success flag, mirroring the `(value, error)` returns of the source.
* Point arithmetic: the complete addition formula file of the repository is
  not part of the provided sources, so the group operations on curve points
  are modelled abstractly by an additive commutative group, per the spec's
  contract ("exception-free complete formulas", section 4.C).  The scalar
  multiplication *algorithms* (windows, tables, select-and-add masking, GLV
  split) are translated faithfully from the Go sources.
-/

set_option maxRecDepth 100000

namespace Secp256k1

/-- The field prime `p = 2^256 − 2^32 − 977` (src: internal/field, spec §6). -/
def pVal : Nat := 2 ^ 256 - 2 ^ 32 - 977

/-- The group order `n` (src: scalar code, spec §6). -/
def nVal : Nat :=
  0xfffffffffffffffffffffffffffffffebaaedce6af48a03bbfd25e8cd0364141

/-- `n / 2` threshold `halfNSat` used by `IsGreaterThanHalfN`
(src: scalar code, `halfNSat`). -/
def halfN : Nat :=
  0x7fffffffffffffffffffffffffffffff5d576e7357a4501ddfe92f46681b20a0

/-- The GLV endomorphism scalar λ (src: point_mul_glv.go comment, spec §6). -/
def lamVal : Nat :=
  0x5363ad4cc05c30e0a5261c028812645a122e22ea20816678df02967c1b23bd72

/-- `-λ mod n` (src: point_mul_glv.go, `negLambda`). -/
def negLambdaVal : Nat :=
  0xac9c52b33fa3cf1f5ad9e3fd77ed9ba4a880b9fc8ec739c2e0cfc810b51283cf

/-- `-b1` of the GLV lattice basis (src: point_mul_glv.go, `negB1`and
`bigNegB1`; a positive 128-bit integer). -/
def negB1Val : Nat := 0xe4437ed6010e88286f547fa90abfe4c3

/-- `b2` of the GLV lattice basis (src: point_mul_glv.go, `bigB2`). -/
def b2Val : Nat := 0x3086d221a7d46bcde86c90e49284eb15

/-- `-b2 mod n` (src: point_mul_glv.go, `negB2`). -/
def negB2Val : Nat :=
  0xfffffffffffffffffffffffffffffffe8a280ac50774346dd765cda83db1562c

/-- The second component `a2` of the GLV lattice basis vector `v2 = (a2, b2)`
from Hankerson–Menezes–Vanstone Algorithm 3.74 (the source eliminates `a1`,
`a2` via `k1 = k - k2·λ mod n`; this constant only appears in proofs). -/
def a2Val : Nat := 0x114ca50f7a8e2f3f657c1108d9d44cfd8

/-! ## Fast modular exponentiation

Used to model the addchain-generated exponentiations of the source
(`Element.Sqrt`, `Scalar.Invert`) at the value level, and to keep every
definition kernel-executable. -/

/-- Square-and-multiply core, structurally recursive on a fuel bound. -/
def powModAux (m : Nat) : Nat → Nat → Nat → Nat
  | 0, _, _ => 1 % m
  | fuel + 1, b, e =>
    if e = 0 then 1 % m
    else
      let r := powModAux m fuel (b * b % m) (e / 2)
      if e % 2 = 1 then r * b % m else r

/-- `powMod m b e = b ^ e % m` (for `m > 0`), computed in `O(log e)` steps. -/
def powMod (m b e : Nat) : Nat := powModAux m (e + 1) b e

theorem powModAux_correct (m : Nat) :
    ∀ fuel e b, e < fuel → powModAux m fuel b e = b ^ e % m := by
  intro fuel
  induction fuel with
  | zero => intro e b h; omega
  | succ f ih =>
    intro e b h
    unfold powModAux
    by_cases he : e = 0
    · simp [he]
    · simp only [he, if_false]
      have hlt : e / 2 < f := by omega
      rw [ih (e / 2) (b * b % m) hlt]
      have hsq : (b * b % m) ^ (e / 2) % m = b ^ (2 * (e / 2)) % m := by
        conv_rhs => rw [pow_mul, pow_two, Nat.pow_mod]
      by_cases hodd : e % 2 = 1
      · simp only [hodd, if_true]
        rw [hsq, Nat.mod_mul_mod]
        have he2 : e = 2 * (e / 2) + 1 := by omega
        conv_rhs => rw [he2, pow_succ]
      · simp only [hodd, if_false]
        rw [hsq]
        have he2 : 2 * (e / 2) = e := by omega
        rw [he2]

theorem powMod_correct (m b e : Nat) : powMod m b e = b ^ e % m :=
  powModAux_correct m (e + 1) e b (Nat.lt_succ_self e)

/-! ## Big-endian byte strings

`Scalar.Bytes`/`Element.Bytes` produce 32-byte big-endian encodings; the
multiplication loops consume them most-significant byte first. -/

/-- `bytesBE l v` is the `l`-byte big-endian encoding of `v % 256^l`,
most-significant byte first. -/
def bytesBE : Nat → Nat → List Nat
  | 0, _ => []
  | l + 1, v => (v / 256 ^ l) % 256 :: bytesBE l v

/-- Value of a big-endian byte string, most-significant byte first. -/
def natOfBytesBE : List Nat → Nat
  | [] => 0
  | b :: bs => b * 256 ^ bs.length + natOfBytesBE bs

theorem bytesBE_length (l v : Nat) : (bytesBE l v).length = l := by
  induction l generalizing v with
  | zero => simp [bytesBE]
  | succ k ih => simp [bytesBE, ih]

theorem natOfBytesBE_bytesBE (l v : Nat) :
    natOfBytesBE (bytesBE l v) = v % 256 ^ l := by
  induction l generalizing v with
  | zero => simp [bytesBE, natOfBytesBE, Nat.mod_one]
  | succ k ih =>
    rw [bytesBE]
    show (v / 256 ^ k) % 256 * 256 ^ (bytesBE k v).length + natOfBytesBE (bytesBE k v)
      = v % 256 ^ (k + 1)
    rw [bytesBE_length, ih v, pow_succ, Nat.mod_mul]
    ring

theorem natOfBytesBE_bytesBE_of_lt (l v : Nat) (h : v < 256 ^ l) :
    natOfBytesBE (bytesBE l v) = v := by
  rw [natOfBytesBE_bytesBE, Nat.mod_eq_of_lt h]

theorem bytesBE_lt (l v : Nat) : ∀ b ∈ bytesBE l v, b < 256 := by
  induction l generalizing v with
  | zero => simp [bytesBE]
  | succ k ih =>
    intro b hb
    rw [bytesBE] at hb
    rcases List.mem_cons.mp hb with h | h
    · subst h; exact Nat.mod_lt _ (by omega)
    · exact ih v b h

/-! ## Primality of the field prime

`p ≡ 3 (mod 4)` square roots (`Element.Sqrt`) are only correct because `p`
is prime (Euler's criterion / Fermat).  We certify `p`'s primality through
a chain of Lucas certificates, using `powMod` to keep the modular
exponentiations kernel-computable. -/

theorem powMod_cast_zmod (m b e : Nat) :
    ((powMod m b e : Nat) : ZMod m) = (b : ZMod m) ^ e := by
  rw [powMod_correct, ZMod.natCast_mod, Nat.cast_pow]

theorem powMod_lt (m b e : Nat) (hm : 0 < m) : powMod m b e < m := by
  rw [powMod_correct]; exact Nat.mod_lt _ hm

theorem natCast_zmod_inj (m a b : Nat) (ha : a < m) (hb : b < m)
    (h : (a : ZMod m) = (b : ZMod m)) : a = b := by
  have h1 := ZMod.val_cast_of_lt ha
  have h2 := ZMod.val_cast_of_lt hb
  rw [← h1, ← h2, h]

/-- A checkable Lucas primality certificate: `l` is a full prime
factorisation of `p - 1` (with multiplicity), `qs` its support, and `a` a
witness of order `p - 1` modulo `p`. -/
theorem lucasCert (p a : Nat) (l qs : List Nat)
    (hp : 1 < p)
    (hprod : l.prod = p - 1)
    (hmem : ∀ q ∈ l, q ∈ qs)
    (hqs : ∀ q ∈ qs, Nat.Prime q)
    (ha : powMod p a (p - 1) = 1)
    (hd : ∀ q ∈ qs, powMod p a ((p - 1) / q) ≠ 1) : Nat.Prime p := by
  apply lucas_primality p (a : ZMod p)
  · have hcast := powMod_cast_zmod p a (p - 1)
    rw [ha] at hcast
    simpa using hcast.symm
  · intro q hq hqdvd
    have hq1 : q ∣ l.prod := by rw [hprod]; exact hqdvd
    obtain ⟨x, hx, hqx⟩ := (Nat.Prime.prime hq).dvd_prod_iff.mp hq1
    have hxqs := hmem x hx
    have hxprime := hqs x hxqs
    have hqeq : q = x := (Nat.prime_dvd_prime_iff_eq hq hxprime).mp hqx
    subst hqeq
    intro hcontra
    apply hd q hxqs
    apply natCast_zmod_inj p _ 1 (powMod_lt p a _ (by omega)) hp
    rw [powMod_cast_zmod]
    simpa using hcontra

theorem prime_971 : Nat.Prime 971 := by norm_num
theorem prime_1373 : Nat.Prime 1373 := by norm_num
theorem prime_2621 : Nat.Prime 2621 := by norm_num
theorem prime_24809 : Nat.Prime 24809 := by norm_num
theorem prime_5323 : Nat.Prime 5323 := by norm_num
theorem prime_20113 : Nat.Prime 20113 := by norm_num
theorem prime_1627 : Nat.Prime 1627 := by norm_num
theorem prime_2657 : Nat.Prime 2657 := by norm_num
theorem prime_4423 : Nat.Prime 4423 := by norm_num
theorem prime_41201 : Nat.Prime 41201 := by norm_num
theorem prime_96557 : Nat.Prime 96557 := by norm_num
theorem prime_7723 : Nat.Prime 7723 := by norm_num
theorem prime_13441 : Nat.Prime 13441 := by norm_num

theorem prime_13331831 : Nat.Prime 13331831 := by
  apply lucasCert 13331831 13 [2, 5, 971, 1373] [2, 5, 971, 1373]
  · norm_num
  · decide
  · decide
  · intro q hq
    fin_cases hq
    · exact Nat.prime_two
    · norm_num
    · exact prime_971
    · exact prime_1373
  · decide
  · decide

theorem prime_1206781 : Nat.Prime 1206781 := by
  apply lucasCert 1206781 10 [2, 2, 3, 5, 20113] [2, 3, 5, 20113]
  · norm_num
  · decide
  · decide
  · intro q hq
    fin_cases hq
    · exact Nat.prime_two
    · exact Nat.prime_three
    · norm_num
    · exact prime_20113
  · decide
  · decide

theorem prime_7240687 : Nat.Prime 7240687 := by
  apply lucasCert 7240687 3 [2, 3, 1206781] [2, 3, 1206781]
  · norm_num
  · decide
  · decide
  · intro q hq
    fin_cases hq
    · exact Nat.prime_two
    · exact Nat.prime_three
    · exact prime_1206781
  · decide
  · decide

theorem prime_107590001 : Nat.Prime 107590001 := by
  apply lucasCert 107590001 3 [2, 2, 2, 2, 5, 5, 5, 5, 7, 29, 53] [2, 5, 7, 29, 53]
  · norm_num
  · decide
  · decide
  · intro q hq
    fin_cases hq <;> norm_num
  · decide
  · decide

theorem prime_cert17 : Nat.Prime 173378833005251801 := by
  apply lucasCert 173378833005251801 6 [2, 2, 2, 5, 5, 2621, 24809, 13331831]
    [2, 5, 2621, 24809, 13331831]
  · norm_num
  · decide
  · decide
  · intro q hq
    fin_cases hq
    · exact Nat.prime_two
    · norm_num
    · exact prime_2621
    · exact prime_24809
    · exact prime_13331831
  · decide
  · decide

theorem prime_cert22 : Nat.Prime 22149492674086928081353 := by
  apply lucasCert 22149492674086928081353 5 [2, 2, 2, 3, 5323, 173378833005251801]
    [2, 3, 5323, 173378833005251801]
  · norm_num
  · decide
  · decide
  · intro q hq
    fin_cases hq
    · exact Nat.prime_two
    · exact Nat.prime_three
    · exact prime_5323
    · exact prime_cert17
  · decide
  · decide

theorem prime_cert23 : Nat.Prime 132896956044521568488119 := by
  apply lucasCert 132896956044521568488119 6 [2, 3, 22149492674086928081353]
    [2, 3, 22149492674086928081353]
  · norm_num
  · decide
  · decide
  · intro q hq
    fin_cases hq
    · exact Nat.prime_two
    · exact Nat.prime_three
    · exact prime_cert22
  · decide
  · decide

theorem prime_cert39 : Nat.Prime 255515944373312847190720520512484175977 := by
  apply lucasCert 255515944373312847190720520512484175977 3
    [2, 2, 2, 7, 7, 11, 1627, 2657, 4423, 41201, 96557, 7240687, 107590001]
    [2, 7, 11, 1627, 2657, 4423, 41201, 96557, 7240687, 107590001]
  · norm_num
  · decide
  · decide
  · intro q hq
    fin_cases hq
    · exact Nat.prime_two
    · norm_num
    · norm_num
    · exact prime_1627
    · exact prime_2657
    · exact prime_4423
    · exact prime_41201
    · exact prime_96557
    · exact prime_7240687
    · exact prime_107590001
  · decide
  · decide

theorem prime_cert72 :
    Nat.Prime
      205115282021455665897114700593932402728804164701536103180137503955397371 := by
  apply lucasCert
    205115282021455665897114700593932402728804164701536103180137503955397371 10
    [2, 3, 5, 29, 29, 31, 7723, 132896956044521568488119,
      255515944373312847190720520512484175977]
    [2, 3, 5, 29, 31, 7723, 132896956044521568488119,
      255515944373312847190720520512484175977]
  · norm_num
  · decide
  · decide
  · intro q hq
    fin_cases hq
    · exact Nat.prime_two
    · exact Nat.prime_three
    · norm_num
    · norm_num
    · norm_num
    · exact prime_7723
    · exact prime_cert23
    · exact prime_cert39
  · decide
  · decide

/-- The secp256k1 field prime is prime. -/
theorem pVal_prime : Nat.Prime pVal := by
  have hp : pVal =
      115792089237316195423570985008687907853269984665640564039457584007908834671663 := by
    decide
  rw [hp]
  apply lucasCert
    115792089237316195423570985008687907853269984665640564039457584007908834671663 3
    [2, 3, 7, 13441,
      205115282021455665897114700593932402728804164701536103180137503955397371]
    [2, 3, 7, 13441,
      205115282021455665897114700593932402728804164701536103180137503955397371]
  · norm_num
  · decide
  · decide
  · intro q hq
    fin_cases hq
    · exact Nat.prime_two
    · exact Nat.prime_three
    · norm_num
    · exact prime_13441
    · exact prime_cert72
  · decide
  · decide

/-! ## Field element arithmetic (internal/field, value level)

An `Element` holds an integer in `[0, p)`; the fiat Montgomery limb code is
modelled by arithmetic `% p` (the documented contract of each method). -/

/-- `Element.Multiply` (internal/field field.go). -/
def feMul (a b : Nat) : Nat := a * b % pVal

/-- `Element.Square` (internal/field field.go). -/
def feSquare (a : Nat) : Nat := a * a % pVal

/-- `Element.Negate` (internal/field field.go, fiat `Opp`). -/
def feNeg (a : Nat) : Nat := (pVal - a) % pVal

/-- `Element.Pow2k`: `k` iterated squarings (internal/field field.go).
The source panics on `k = 0`; it is never called with `k = 0`. -/
def fePow2k (a : Nat) : Nat → Nat
  | 0 => a
  | k + 1 => feSquare (fePow2k a k)

/-- `Element.IsOdd` (internal/field field.go): 1 iff the canonical value is
odd. -/
def feIsOdd (a : Nat) : Nat := a % 2

theorem feMul_pow (a e1 e2 x y : Nat) (hx : x = a ^ e1 % pVal)
    (hy : y = a ^ e2 % pVal) : feMul x y = a ^ (e1 + e2) % pVal := by
  subst hx hy
  unfold feMul
  conv_rhs => rw [pow_add, Nat.mul_mod]

theorem feSquare_pow (a e x : Nat) (hx : x = a ^ e % pVal) :
    feSquare x = a ^ (2 * e) % pVal := by
  have h := feMul_pow a e e x x hx hx
  unfold feMul at h
  unfold feSquare
  rw [h]
  ring_nf

theorem fePow2k_pow (a e x : Nat) (hx : x = a ^ e % pVal) (k : Nat) :
    fePow2k x k = a ^ (e * 2 ^ k) % pVal := by
  induction k with
  | zero => simpa using hx
  | succ j ih =>
    show feSquare (fePow2k x j) = _
    rw [feSquare_pow a (e * 2 ^ j) _ ih]
    ring_nf

/-! The `Element.Sqrt` addition chain (internal/field/field_sqrt.go),
computing `a ^ ((p+1)/4)` with 3 blocks of 1-bits of lengths 2, 22, 223. -/

def feX2 (a : Nat) : Nat := feMul (feSquare a) a
def feX3 (a : Nat) : Nat := feMul (feSquare (feX2 a)) a
def feX6 (a : Nat) : Nat := feMul (fePow2k (feX3 a) 3) (feX3 a)
def feX9 (a : Nat) : Nat := feMul (fePow2k (feX6 a) 3) (feX3 a)
def feX11 (a : Nat) : Nat := feMul (fePow2k (feX9 a) 2) (feX2 a)
def feX22 (a : Nat) : Nat := feMul (fePow2k (feX11 a) 11) (feX11 a)
def feX44 (a : Nat) : Nat := feMul (fePow2k (feX22 a) 22) (feX22 a)
def feX88 (a : Nat) : Nat := feMul (fePow2k (feX44 a) 44) (feX44 a)
def feX176 (a : Nat) : Nat := feMul (fePow2k (feX88 a) 88) (feX88 a)
def feX220 (a : Nat) : Nat := feMul (fePow2k (feX176 a) 44) (feX44 a)
def feX223 (a : Nat) : Nat := feMul (fePow2k (feX220 a) 3) (feX3 a)

/-- The square root candidate assembled by a sliding window over the blocks
(field_sqrt.go, the `t1`/`r` steps). -/
def feSqrtCand (a : Nat) : Nat :=
  feSquare (feSquare (feMul (fePow2k (feMul (fePow2k (feX223 a) 23) (feX22 a)) 6) (feX2 a)))

/-- `Element.Sqrt` (field_sqrt.go): returns `(fe, 1)` with `fe² = a` when the
candidate squares back to `a`, else `(0, 0)`. -/
def feSqrt (a : Nat) : Nat × Nat :=
  let r := feSqrtCand a
  let isSqrt := if feSquare r = a then 1 else 0
  (if isSqrt = 1 then r else 0, isSqrt)

theorem feSqrtCand_eq (a : Nat) (ha : a < pVal) :
    feSqrtCand a = a ^ ((pVal + 1) / 4) % pVal := by
  have h1 : a = a ^ 1 % pVal := by rw [pow_one, Nat.mod_eq_of_lt ha]
  have h2 : feX2 a = a ^ 3 % pVal := by
    have := feMul_pow a 2 1 _ a (feSquare_pow a 1 a h1) h1
    simpa [feX2] using this
  have h3 : feX3 a = a ^ 7 % pVal := by
    have := feMul_pow a 6 1 _ a (feSquare_pow a 3 _ h2) h1
    simpa [feX3] using this
  have h6 : feX6 a = a ^ 63 % pVal := by
    have := feMul_pow a (7 * 2 ^ 3) 7 _ _ (fePow2k_pow a 7 _ h3 3) h3
    simpa [feX6] using this
  have h9 : feX9 a = a ^ 511 % pVal := by
    have := feMul_pow a (63 * 2 ^ 3) 7 _ _ (fePow2k_pow a 63 _ h6 3) h3
    simpa [feX9] using this
  have h11 : feX11 a = a ^ 2047 % pVal := by
    have := feMul_pow a (511 * 2 ^ 2) 3 _ _ (fePow2k_pow a 511 _ h9 2) h2
    simpa [feX11] using this
  have h22 : feX22 a = a ^ (2 ^ 22 - 1) % pVal := by
    have := feMul_pow a (2047 * 2 ^ 11) 2047 _ _ (fePow2k_pow a 2047 _ h11 11) h11
    simpa [feX22] using this
  have h44 : feX44 a = a ^ (2 ^ 44 - 1) % pVal := by
    have := feMul_pow a ((2 ^ 22 - 1) * 2 ^ 22) (2 ^ 22 - 1) _ _
      (fePow2k_pow a (2 ^ 22 - 1) _ h22 22) h22
    simpa [feX44] using this
  have h88 : feX88 a = a ^ (2 ^ 88 - 1) % pVal := by
    have := feMul_pow a ((2 ^ 44 - 1) * 2 ^ 44) (2 ^ 44 - 1) _ _
      (fePow2k_pow a (2 ^ 44 - 1) _ h44 44) h44
    simpa [feX88] using this
  have h176 : feX176 a = a ^ (2 ^ 176 - 1) % pVal := by
    have := feMul_pow a ((2 ^ 88 - 1) * 2 ^ 88) (2 ^ 88 - 1) _ _
      (fePow2k_pow a (2 ^ 88 - 1) _ h88 88) h88
    simpa [feX176] using this
  have h220 : feX220 a = a ^ (2 ^ 220 - 1) % pVal := by
    have := feMul_pow a ((2 ^ 176 - 1) * 2 ^ 44) (2 ^ 44 - 1) _ _
      (fePow2k_pow a (2 ^ 176 - 1) _ h176 44) h44
    simpa [feX220] using this
  have h223 : feX223 a = a ^ (2 ^ 223 - 1) % pVal := by
    have := feMul_pow a ((2 ^ 220 - 1) * 2 ^ 3) 7 _ _
      (fePow2k_pow a (2 ^ 220 - 1) _ h220 3) h3
    simpa [feX223] using this
  have ht1 : feMul (fePow2k (feX223 a) 23) (feX22 a)
      = a ^ ((2 ^ 223 - 1) * 2 ^ 23 + (2 ^ 22 - 1)) % pVal :=
    feMul_pow a ((2 ^ 223 - 1) * 2 ^ 23) (2 ^ 22 - 1) _ _
      (fePow2k_pow a (2 ^ 223 - 1) _ h223 23) h22
  have ht2 : feMul (fePow2k (feMul (fePow2k (feX223 a) 23) (feX22 a)) 6) (feX2 a)
      = a ^ (((2 ^ 223 - 1) * 2 ^ 23 + (2 ^ 22 - 1)) * 2 ^ 6 + 3) % pVal :=
    feMul_pow a (((2 ^ 223 - 1) * 2 ^ 23 + (2 ^ 22 - 1)) * 2 ^ 6) 3 _ _
      (fePow2k_pow a ((2 ^ 223 - 1) * 2 ^ 23 + (2 ^ 22 - 1)) _ ht1 6) h2
  have hr : feSqrtCand a
      = a ^ (2 * (2 * ((((2 ^ 223 - 1) * 2 ^ 23 + (2 ^ 22 - 1)) * 2 ^ 6 + 3)))) % pVal := by
    unfold feSqrtCand
    rw [feSquare_pow a _ _ (feSquare_pow a _ _ ht2)]
  have hexp : 2 * (2 * ((((2 ^ 223 - 1) * 2 ^ 23 + (2 ^ 22 - 1)) * 2 ^ 6 + 3)))
      = (pVal + 1) / 4 := by decide
  rw [hr, hexp]

instance factPValPrime : Fact (Nat.Prime pVal) := ⟨pVal_prime⟩

theorem pVal_pos : 0 < pVal := by decide

theorem natCast_mod_pVal (x : Nat) :
    ((x % pVal : Nat) : ZMod pVal) = (x : ZMod pVal) :=
  ZMod.natCast_mod x pVal

/-- Since `p ≡ 3 (mod 4)`, the `(p+1)/4`-th power of a square is one of its
square roots (Euler's criterion, using Fermat's little theorem). -/
theorem zmod_sqrt_cand_sq (α β : ZMod pVal) (hβ : β * β = α) :
    (α ^ ((pVal + 1) / 4)) ^ 2 = α := by
  rw [← hβ]
  by_cases hz : β = 0
  · subst hz
    have hE : (pVal + 1) / 4 ≠ 0 := by decide
    simp [zero_pow hE]
  · have h1 : β ^ (pVal - 1) = 1 := ZMod.pow_card_sub_one_eq_one hz
    have h2 : ((β * β) ^ ((pVal + 1) / 4)) ^ 2 = β ^ (pVal + 1) := by
      rw [← pow_two, ← pow_mul, ← pow_mul]
      congr 1
    rw [h2]
    have h3 : pVal + 1 = (pVal - 1) + 2 := by decide
    rw [h3, pow_add, h1, one_mul, pow_two]

/-- If `a` has a square root mod `p` then the addchain candidate squares
back to `a`, so `Element.Sqrt` reports success. -/
theorem feSqrtCand_sq_of_qr (a y : Nat) (ha : a < pVal) (hy : y * y % pVal = a) :
    feSquare (feSqrtCand a) = a := by
  apply natCast_zmod_inj pVal _ a (Nat.mod_lt _ pVal_pos) ha
  show (((feSqrtCand a * feSqrtCand a) % pVal : Nat) : ZMod pVal) = _
  rw [natCast_mod_pVal, Nat.cast_mul]
  have hc : ((feSqrtCand a : Nat) : ZMod pVal) = ((a : ZMod pVal)) ^ ((pVal + 1) / 4) := by
    rw [feSqrtCand_eq a ha, natCast_mod_pVal, Nat.cast_pow]
  rw [hc]
  have hβ : ((y : ZMod pVal)) * ((y : ZMod pVal)) = (a : ZMod pVal) := by
    rw [← Nat.cast_mul, ← natCast_mod_pVal, hy]
  have := zmod_sqrt_cand_sq (a : ZMod pVal) (y : ZMod pVal) hβ
  rw [pow_two] at this
  exact this

/-- C7.  `Element.Sqrt` (internal/field/field_sqrt.go): `ok = 1` iff `a` is a
quadratic residue mod `p`; on success the result `r` satisfies `r·r = a` in
the field and equals `a^((p+1)/4)` (`p ≡ 3 (mod 4)`); on failure the result
is `0`. -/
theorem sqrt_spec_C7 (a : Nat) (ha : a < pVal) :
    (((feSqrt a).2 = 1) ↔ ∃ y, y < pVal ∧ y * y % pVal = a) ∧
    ((feSqrt a).2 = 1 →
      feMul (feSqrt a).1 (feSqrt a).1 = a ∧
      (feSqrt a).1 = powMod pVal a ((pVal + 1) / 4)) ∧
    ((feSqrt a).2 = 0 → (feSqrt a).1 = 0) ∧
    pVal % 4 = 3 := by
  by_cases hchk : feSquare (feSqrtCand a) = a
  · have hval : feSqrt a = (feSqrtCand a, 1) := by
      unfold feSqrt
      simp [hchk]
    rw [hval]
    refine ⟨⟨fun _ => ?_, fun _ => rfl⟩, fun _ => ⟨hchk, ?_⟩, by simp, by decide⟩
    · refine ⟨feSqrtCand a, ?_, hchk⟩
      rw [feSqrtCand_eq a ha]
      exact Nat.mod_lt _ pVal_pos
    · rw [feSqrtCand_eq a ha, powMod_correct]
  · have hval : feSqrt a = (0, 0) := by
      unfold feSqrt
      simp [hchk]
    rw [hval]
    refine ⟨⟨by simp, fun hex => ?_⟩, by simp, fun _ => rfl, by decide⟩
    obtain ⟨y, _, hy⟩ := hex
    exact absurd (feSqrtCand_sq_of_qr a y ha hy) hchk

/-- Witness for C7 at the concrete input `a = 4`. -/
theorem sqrt_spec_C7_witness :
    (4 < pVal) ∧
    ((((feSqrt 4).2 = 1) ↔ ∃ y, y < pVal ∧ y * y % pVal = 4) ∧
     ((feSqrt 4).2 = 1 →
       feMul (feSqrt 4).1 (feSqrt 4).1 = 4 ∧
       (feSqrt 4).1 = powMod pVal 4 ((pVal + 1) / 4)) ∧
     ((feSqrt 4).2 = 0 → (feSqrt 4).1 = 0) ∧
     pVal % 4 = 3) :=
  ⟨by decide, sqrt_spec_C7 4 (by decide)⟩

/-! ## Scalar arithmetic (value level)

A `Scalar` holds an integer in `[0, n)` (scalar code bundled in the sources,
fiat Montgomery limbs modelled at the value level). -/

/-- `reduceSaturated` (scalar code): conditional subtraction of `n`; input is
a 256-bit value (`< 2n`), flag is 1 iff reduction happened. -/
def scReduce (v : Nat) : Nat × Nat :=
  if v < nVal then (v, 0) else (v - nVal, 1)

/-- `Scalar.SetBytes`: decode 32 big-endian bytes, reduce once, report it. -/
def scSetBytes (src : List Nat) : Nat × Nat := scReduce (natOfBytesBE src)

/-- `Scalar.SetCanonicalBytes`: error (`none`) iff the value needs reduction. -/
def scSetCanonicalBytes (src : List Nat) : Option Nat :=
  if (scReduce (natOfBytesBE src)).2 ≠ 0 then none
  else some (natOfBytesBE src)

/-- `Scalar.Add` (fiat `Add`, value level). -/
def scAdd (a b : Nat) : Nat := (a + b) % nVal

/-- `Scalar.Multiply` (fiat `Mul`, value level). -/
def scMul (a b : Nat) : Nat := a * b % nVal

/-- `Scalar.Negate` (fiat `Opp`, value level). -/
def scNeg (a : Nat) : Nat := (nVal - a) % nVal

/-- `Scalar.Subtract` (fiat `Sub`, value level): `(a - b) mod n` for
`a, b < n`. -/
def scSub (a b : Nat) : Nat := (a + (nVal - b)) % nVal

/-- `Scalar.IsZero`: 1 iff zero. -/
def scIsZero (a : Nat) : Nat := if a = 0 then 1 else 0

/-- `Scalar.IsGreaterThanHalfN` (scalar code): borrow-test of `s - n/2`,
returning 1 iff `s > halfN`. -/
def scIsGreaterThanHalfN (s : Nat) : Nat := if halfN < s then 1 else 0

/-- `Scalar.ConditionalSelect(a, b, ctrl)`: `a` if `ctrl = 0` else `b`. -/
def scConditionalSelect (a b ctrl : Nat) : Nat := if ctrl = 0 then a else b

/-- `Scalar.ConditionalNegate(a, ctrl)`: `a` if `ctrl = 0` else `-a`. -/
def scConditionalNegate (a ctrl : Nat) : Nat := if ctrl = 0 then a else scNeg a

/-- Modelled from the spec: `Scalar.Invert` uses an addition chain for the
exponent `n - 2` (the addchain-generated scalar inversion file is not among
the provided sources; spec §4.B). -/
def scInvert (a : Nat) : Nat := powMod nVal a (nVal - 2)

theorem natOfBytesBE_lt (bs : List Nat) (h : ∀ b ∈ bs, b < 256) :
    natOfBytesBE bs < 256 ^ bs.length := by
  induction bs with
  | nil => simp [natOfBytesBE]
  | cons x xs ih =>
    have hx : x < 256 := h x (List.mem_cons_self x xs)
    have hxs := ih (fun b hb => h b (List.mem_cons_of_mem x hb))
    show x * 256 ^ xs.length + natOfBytesBE xs < 256 ^ (x :: xs).length
    have : 256 ^ (x :: xs).length = 256 * 256 ^ xs.length := by
      simp [List.length_cons]; ring
    rw [this]
    calc x * 256 ^ xs.length + natOfBytesBE xs
        < x * 256 ^ xs.length + 256 ^ xs.length := by omega
      _ = (x + 1) * 256 ^ xs.length := by ring
      _ ≤ 256 * 256 ^ xs.length := by
          exact Nat.mul_le_mul_right _ (by omega)

/-- C8.  `Scalar.SetBytes` always succeeds with `(src mod n, did_reduce)`,
`did_reduce = 1` exactly when the encoded value is `≥ n`;
`Scalar.SetCanonicalBytes` errors exactly when the value is `≥ n` and
otherwise returns it. -/
theorem scalar_set_bytes_C8 (src : List Nat) (hlen : src.length = 32)
    (hbytes : ∀ b ∈ src, b < 256) :
    (scSetBytes src).1 = natOfBytesBE src % nVal ∧
    ((scSetBytes src).2 = 1 ↔ nVal ≤ natOfBytesBE src) ∧
    (scSetCanonicalBytes src = none ↔ nVal ≤ natOfBytesBE src) ∧
    (natOfBytesBE src < nVal → scSetCanonicalBytes src = some (natOfBytesBE src)) := by
  have hlt : natOfBytesBE src < 2 ^ 256 := by
    have := natOfBytesBE_lt src hbytes
    rw [hlen] at this
    calc natOfBytesBE src < 256 ^ 32 := this
      _ = 2 ^ 256 := by norm_num
  have h2n : natOfBytesBE src < 2 * nVal := by
    have : 2 ^ 256 < 2 * nVal := by decide
    omega
  by_cases hred : natOfBytesBE src < nVal
  · have hs : scSetBytes src = (natOfBytesBE src, 0) := by
      unfold scSetBytes scReduce
      simp [hred]
    have hc : scSetCanonicalBytes src = some (natOfBytesBE src) := by
      unfold scSetCanonicalBytes scReduce
      simp [hred]
    rw [hs, hc]
    refine ⟨(Nat.mod_eq_of_lt hred).symm, by simp; omega, by simp; omega, fun _ => rfl⟩
  · have hs : scSetBytes src = (natOfBytesBE src - nVal, 1) := by
      unfold scSetBytes scReduce
      simp [hred]
    have hc : scSetCanonicalBytes src = none := by
      unfold scSetCanonicalBytes scReduce
      simp [hred]
    rw [hs, hc]
    have hmod : natOfBytesBE src % nVal = natOfBytesBE src - nVal := by
      have hge : nVal ≤ natOfBytesBE src := by omega
      rw [Nat.mod_eq_sub_mod hge, Nat.mod_eq_of_lt (by omega)]
    exact ⟨hmod.symm, by simp; omega, by simp; omega, fun h => by omega⟩

/-- Witness for C8 at the byte encoding of `n` itself (which must reduce
to zero with `did_reduce = 1`, and must be rejected by the canonical
decoder). -/
theorem scalar_set_bytes_C8_witness :
    ((bytesBE 32 nVal).length = 32 ∧ (∀ b ∈ bytesBE 32 nVal, b < 256)) ∧
    ((scSetBytes (bytesBE 32 nVal)).1 = natOfBytesBE (bytesBE 32 nVal) % nVal ∧
     ((scSetBytes (bytesBE 32 nVal)).2 = 1 ↔ nVal ≤ natOfBytesBE (bytesBE 32 nVal)) ∧
     (scSetCanonicalBytes (bytesBE 32 nVal) = none ↔
       nVal ≤ natOfBytesBE (bytesBE 32 nVal)) ∧
     (natOfBytesBE (bytesBE 32 nVal) < nVal →
       scSetCanonicalBytes (bytesBE 32 nVal) = some (natOfBytesBE (bytesBE 32 nVal)))) :=
  ⟨⟨by decide, by decide⟩,
    scalar_set_bytes_C8 (bytesBE 32 nVal) (by decide) (by decide)⟩

/-! ## GLV scalar decomposition (point_mul_glv.go) -/

/-- `Scalar.splitVartime` (point_mul_glv.go): `c1 = ⌊b2·k/n⌋`,
`c2 = ⌊-b1·k/n⌋` via `math/big.Div`, then `k2 = c1·(-b1) + c2·(-b2)` and
`k1 = k + k2·(-λ)`, all scalar arithmetic mod `n`. -/
def splitVartime (k : Nat) : Nat × Nat :=
  let c1 := b2Val * k / nVal
  let c2 := negB1Val * k / nVal
  let k2 := scAdd (scMul c1 negB1Val) (scMul c2 negB2Val)
  let k1 := scAdd k (scMul k2 negLambdaVal)
  (k1, k2)

theorem nVal_pos : 0 < nVal := by decide

theorem natCast_mod_nVal (x : Nat) :
    ((x % nVal : Nat) : ZMod nVal) = (x : ZMod nVal) :=
  ZMod.natCast_mod x nVal

theorem lt_div_succ_mul (a b : Nat) (hb : 0 < b) : a < (a / b + 1) * b := by
  have h1 : a = b * (a / b) + a % b := (Nat.div_add_mod a b).symm
  have h2 : a % b < b := Nat.mod_lt a hb
  calc a = b * (a / b) + a % b := h1
    _ < b * (a / b) + b := by omega
    _ = (a / b + 1) * b := by ring

theorem negLambda_cast : ((negLambdaVal : ZMod nVal)) = -(lamVal : ZMod nVal) := by
  have h0 : ((negLambdaVal + lamVal : ℕ) : ZMod nVal) = 0 := by
    rw [show negLambdaVal + lamVal = nVal by decide]
    exact ZMod.natCast_self nVal
  push_cast at h0
  exact eq_neg_of_add_eq_zero_left h0

theorem negB2_cast : ((negB2Val : ZMod nVal)) = -(b2Val : ZMod nVal) := by
  have h0 : ((negB2Val + b2Val : ℕ) : ZMod nVal) = 0 := by
    rw [show negB2Val + b2Val = nVal by decide]
    exact ZMod.natCast_self nVal
  push_cast at h0
  exact eq_neg_of_add_eq_zero_left h0

/-- `λ·(-b1) ≡ b2 (mod n)`: the first GLV lattice relation. -/
theorem lam_negB1_cast :
    (lamVal : ZMod nVal) * (negB1Val : ZMod nVal) = (b2Val : ZMod nVal) := by
  have h0 : ((lamVal * negB1Val % nVal : ℕ) : ZMod nVal) = ((b2Val : ℕ) : ZMod nVal) := by
    rw [show lamVal * negB1Val % nVal = b2Val by decide]
  rw [natCast_mod_nVal] at h0
  push_cast at h0
  exact h0

/-- `λ·b2 ≡ -a2 (mod n)`: the second GLV lattice relation. -/
theorem lam_b2_cast :
    (lamVal : ZMod nVal) * (b2Val : ZMod nVal) = -(a2Val : ZMod nVal) := by
  have h0 : ((lamVal * b2Val + a2Val : ℕ) : ZMod nVal) = 0 := by
    rw [← natCast_mod_nVal (lamVal * b2Val + a2Val)]
    rw [show (lamVal * b2Val + a2Val) % nVal = 0 from by decide]
    exact Nat.cast_zero
  push_cast at h0
  exact eq_neg_of_add_eq_zero_left h0

/-- `k ≡ k1 + k2·λ (mod n)` for the GLV split, by construction of `k1`. -/
theorem splitVartime_congr (k : Nat) (hk : k < nVal) :
    ((splitVartime k).1 + (splitVartime k).2 * lamVal) % nVal = k := by
  apply natCast_zmod_inj nVal _ k (Nat.mod_lt _ nVal_pos) hk
  unfold splitVartime
  simp only [scAdd, scMul]
  push_cast [natCast_mod_nVal]
  rw [negLambda_cast]
  ring

/-- Floor-division bound `c1·(-b1) < c2·b2 + b2` (both `c`s approximate the
same ratio scaled by the two basis constants). -/
theorem glv_c1_bound (k : Nat) :
    b2Val * k / nVal * negB1Val < negB1Val * k / nVal * b2Val + b2Val := by
  have h1 : b2Val * k / nVal * nVal ≤ b2Val * k := Nat.div_mul_le_self _ _
  have h2 : negB1Val * k < (negB1Val * k / nVal + 1) * nVal :=
    lt_div_succ_mul _ _ nVal_pos
  have key : b2Val * k / nVal * negB1Val * nVal
      < (negB1Val * k / nVal * b2Val + b2Val) * nVal := by
    calc b2Val * k / nVal * negB1Val * nVal
        = b2Val * k / nVal * nVal * negB1Val := by ring
      _ ≤ b2Val * k * negB1Val := Nat.mul_le_mul_right _ h1
      _ = negB1Val * k * b2Val := by ring
      _ < (negB1Val * k / nVal + 1) * nVal * b2Val :=
          (Nat.mul_lt_mul_right (by decide)).mpr h2
      _ = (negB1Val * k / nVal * b2Val + b2Val) * nVal := by ring
  exact Nat.lt_of_mul_lt_mul_right key

theorem glv_c2_bound (k : Nat) :
    negB1Val * k / nVal * b2Val < b2Val * k / nVal * negB1Val + negB1Val := by
  have h1 : negB1Val * k / nVal * nVal ≤ negB1Val * k := Nat.div_mul_le_self _ _
  have h2 : b2Val * k < (b2Val * k / nVal + 1) * nVal :=
    lt_div_succ_mul _ _ nVal_pos
  have key : negB1Val * k / nVal * b2Val * nVal
      < (b2Val * k / nVal * negB1Val + negB1Val) * nVal := by
    calc negB1Val * k / nVal * b2Val * nVal
        = negB1Val * k / nVal * nVal * b2Val := by ring
      _ ≤ negB1Val * k * b2Val := Nat.mul_le_mul_right _ h1
      _ = b2Val * k * negB1Val := by ring
      _ < (b2Val * k / nVal + 1) * nVal * negB1Val :=
          (Nat.mul_lt_mul_right (by decide)).mpr h2
      _ = (b2Val * k / nVal * negB1Val + negB1Val) * nVal := by ring
  exact Nat.lt_of_mul_lt_mul_right key

/-- The computed `k2` lies either in `[0, b2)` or in `(n - (-b1), n)`:
its signed representative is in `(-(-b1), b2)`. -/
theorem splitVartime_k2_cases (k : Nat) :
    (splitVartime k).2 < b2Val ∨
    (nVal - negB1Val < (splitVartime k).2 ∧ (splitVartime k).2 < nVal) := by
  have hI1 := glv_c1_bound k
  have hI2 := glv_c2_bound k
  set c1 := b2Val * k / nVal with hc1
  set c2 := negB1Val * k / nVal with hc2
  have hk2 : (splitVartime k).2 = (c1 * negB1Val + c2 * negB2Val) % nVal := by
    show (c1 * negB1Val % nVal + c2 * negB2Val % nVal) % nVal = _
    conv_rhs => rw [Nat.add_mod]
  have hsub : c2 * negB2Val = c2 * nVal - c2 * b2Val := by
    rw [show negB2Val = nVal - b2Val from by decide, Nat.mul_sub]
  have hble : c2 * b2Val ≤ c2 * nVal :=
    Nat.mul_le_mul_left _ (by decide)
  have hb2n : b2Val < nVal := by decide
  have hB1n : negB1Val < nVal := by decide
  by_cases hcase : c2 * b2Val ≤ c1 * negB1Val
  · left
    have hdlt : c1 * negB1Val - c2 * b2Val < b2Val := by omega
    have hT : c1 * negB1Val + c2 * negB2Val
        = (c1 * negB1Val - c2 * b2Val) + c2 * nVal := by
      rw [hsub]; omega
    rw [hk2, hT, Nat.add_mul_mod_self_right, Nat.mod_eq_of_lt (by omega)]
    omega
  · right
    push_neg at hcase
    have hc2pos : 1 ≤ c2 := by
      rcases Nat.eq_zero_or_pos c2 with h0 | h1
      · rw [h0] at hcase; simp at hcase
      · exact h1
    have hnle : nVal ≤ c2 * nVal := Nat.le_mul_of_pos_left _ hc2pos
    have hd : c2 * b2Val - c1 * negB1Val < negB1Val := by omega
    have hdpos : 0 < c2 * b2Val - c1 * negB1Val := by omega
    have hsubm : (c2 - 1) * nVal = c2 * nVal - nVal := by
      rw [Nat.sub_mul, one_mul]
    have hT : c1 * negB1Val + c2 * negB2Val
        = (nVal - (c2 * b2Val - c1 * negB1Val)) + (c2 - 1) * nVal := by
      rw [hsub, hsubm]; omega
    rw [hk2, hT, Nat.add_mul_mod_self_right, Nat.mod_eq_of_lt (by omega)]
    omega

/-- The computed `k1` equals the small lattice remainder
`k - c1·b2 - c2·a2`, and in particular is less than `b2 + a2 < 2^129`. -/
theorem splitVartime_k1_lt (k : Nat) (hk : k < nVal) :
    (splitVartime k).1 < b2Val + a2Val := by
  set c1 := b2Val * k / nVal with hc1
  set c2 := negB1Val * k / nVal with hc2
  have hnid : nVal = b2Val * b2Val + a2Val * negB1Val := by decide
  have hle : c1 * b2Val + c2 * a2Val ≤ k := by
    have h1 : c1 * nVal ≤ b2Val * k := Nat.div_mul_le_self _ _
    have h2 : c2 * nVal ≤ negB1Val * k := Nat.div_mul_le_self _ _
    have key : (c1 * b2Val + c2 * a2Val) * nVal ≤ k * nVal := by
      calc (c1 * b2Val + c2 * a2Val) * nVal
          = c1 * nVal * b2Val + c2 * nVal * a2Val := by ring
        _ ≤ b2Val * k * b2Val + negB1Val * k * a2Val :=
            Nat.add_le_add (Nat.mul_le_mul_right _ h1) (Nat.mul_le_mul_right _ h2)
        _ = k * (b2Val * b2Val + a2Val * negB1Val) := by ring
        _ = k * nVal := by rw [← hnid]
    exact Nat.le_of_mul_le_mul_right key nVal_pos
  have hup : k < c1 * b2Val + c2 * a2Val + (b2Val + a2Val) := by
    have h1 : b2Val * k < (c1 + 1) * nVal := lt_div_succ_mul _ _ nVal_pos
    have h2 : negB1Val * k < (c2 + 1) * nVal := lt_div_succ_mul _ _ nVal_pos
    have key : k * nVal < (c1 * b2Val + c2 * a2Val + (b2Val + a2Val)) * nVal := by
      calc k * nVal = k * (b2Val * b2Val + a2Val * negB1Val) := by rw [← hnid]
        _ = b2Val * k * b2Val + negB1Val * k * a2Val := by ring
        _ < (c1 + 1) * nVal * b2Val + (c2 + 1) * nVal * a2Val :=
            Nat.add_lt_add
              ((Nat.mul_lt_mul_right (by decide)).mpr h1)
              ((Nat.mul_lt_mul_right (by decide)).mpr h2)
        _ = (c1 * b2Val + c2 * a2Val + (b2Val + a2Val)) * nVal := by ring
    exact Nat.lt_of_mul_lt_mul_right key
  set w := k - (c1 * b2Val + c2 * a2Val) with hw
  have hwlt : w < b2Val + a2Val := by omega
  have hwn : w < nVal := by
    have : b2Val + a2Val < nVal := by decide
    omega
  have hk1 : (splitVartime k).1 = w := by
    apply natCast_zmod_inj nVal _ _ (Nat.mod_lt _ nVal_pos) hwn
    show (((k + (scMul (scAdd (scMul c1 negB1Val) (scMul c2 negB2Val)) negLambdaVal))
        % nVal : ℕ) : ZMod nVal) = ((w : ℕ) : ZMod nVal)
    rw [hw, Nat.cast_sub hle]
    simp only [scAdd, scMul]
    push_cast [natCast_mod_nVal]
    rw [negLambda_cast, negB2_cast]
    have hr1 := lam_negB1_cast
    have hr2 := lam_b2_cast
    linear_combination (-(c1 : ZMod nVal)) * hr1 + (c2 : ZMod nVal) * hr2
  omega

/-- C6 (amended).  The GLV split satisfies `k ≡ k1 + k2·λ (mod n)`; after
the conditional negation driven by `IsGreaterThanHalfN`, `k2` is < 2^128 as
claimed, but `k1` (which is never negated) is only bounded by 2^129. -/
theorem glv_split_C6 (k : Nat) (hk : k < nVal) :
    ((splitVartime k).1 + (splitVartime k).2 * lamVal) % nVal = k ∧
    scConditionalNegate (splitVartime k).2
      (scIsGreaterThanHalfN (splitVartime k).2) < 2 ^ 128 ∧
    scConditionalNegate (splitVartime k).1
      (scIsGreaterThanHalfN (splitVartime k).1) < 2 ^ 129 := by
  refine ⟨splitVartime_congr k hk, ?_, ?_⟩
  · rcases splitVartime_k2_cases k with h | ⟨h1, h2⟩
    · have hno : ¬ halfN < (splitVartime k).2 := by
        have : b2Val ≤ halfN := by decide
        omega
      unfold scConditionalNegate scIsGreaterThanHalfN
      rw [if_neg hno]
      norm_num
      have : b2Val < 2 ^ 128 := by decide
      omega
    · have hgt : halfN < (splitVartime k).2 := by
        have : halfN ≤ nVal - negB1Val := by decide
        have : negB1Val < nVal := by decide
        omega
      have hctrl : scIsGreaterThanHalfN (splitVartime k).2 = 1 := by
        unfold scIsGreaterThanHalfN
        simp [hgt]
      rw [hctrl]
      unfold scConditionalNegate scNeg
      norm_num
      rw [Nat.mod_eq_of_lt (by omega)]
      have : negB1Val < 2 ^ 128 := by decide
      omega
  · have h1 := splitVartime_k1_lt k hk
    have hno : ¬ halfN < (splitVartime k).1 := by
      have : b2Val + a2Val ≤ halfN := by decide
      omega
    unfold scConditionalNegate scIsGreaterThanHalfN
    rw [if_neg hno]
    norm_num
    have : b2Val + a2Val < 2 ^ 129 := by decide
    omega

/-- C6 counterexample: at this concrete `k < n`, the split's `k1` is left
unchanged by the conditional negation (`k1 ≤ n/2`) yet is `≥ 2^128`, so its
upper 64-bit limbs are not zero, contradicting the claimed 128-bit bound. -/
theorem glv_split_C6_counterexample :
    0x31b1633fc5ab1fcc52b833bb09096f7515ae3b756978bf8c77e177dff9273b38 < nVal ∧
    2 ^ 128 ≤ scConditionalNegate
      (splitVartime 0x31b1633fc5ab1fcc52b833bb09096f7515ae3b756978bf8c77e177dff9273b38).1
      (scIsGreaterThanHalfN
        (splitVartime 0x31b1633fc5ab1fcc52b833bb09096f7515ae3b756978bf8c77e177dff9273b38).1) := by
  constructor
  · decide
  · decide

/-- Witness for the amended C6 at `k = 3`. -/
theorem glv_split_C6_witness :
    3 < nVal ∧
    (((splitVartime 3).1 + (splitVartime 3).2 * lamVal) % nVal = 3 ∧
     scConditionalNegate (splitVartime 3).2
       (scIsGreaterThanHalfN (splitVartime 3).2) < 2 ^ 128 ∧
     scConditionalNegate (splitVartime 3).1
       (scIsGreaterThanHalfN (splitVartime 3).1) < 2 ^ 129) :=
  ⟨by decide, glv_split_C6 3 (by decide)⟩

/-! ## SEC 1 point decoding (point_s11n.go) -/

/-- `Element.Add` (internal/field field.go, value level). -/
def feAdd (a b : Nat) : Nat := (a + b) % pVal

/-- The projective point receiver: coordinates plus the validity flag
(`Point` struct, point code). -/
structure PointRepr where
  x : Nat
  y : Nat
  z : Nat
  isValid : Bool
  deriving DecidableEq

/-- `maybeYY` (point_s11n.go): `x³ + b` with `b = 7`. -/
def maybeYY (x : Nat) : Nat := feAdd (feMul (feSquare x) x) 7

/-- `maybeXXXPlus7` (point_s11n.go): `y²`. -/
def maybeXXXPlus7 (y : Nat) : Nat := feSquare y

/-- The encoded x-coordinate `src[1:33]` of a 33- or 65-byte encoding. -/
def xCoordOf (src : List Nat) : Nat := natOfBytesBE ((src.drop 1).take 32)

/-- The encoded y-coordinate `src[33:65]` of a 65-byte encoding. -/
def yCoordOf (src : List Nat) : Nat := natOfBytesBE ((src.drop 33).take 32)

/-- `Point.SetBytes` (point_s11n.go): SEC 1 decoding.  Returns the new
receiver state and a success flag; on failure the receiver is returned
unchanged (all source writes happen after all checks of a case pass). -/
def setBytes (v : PointRepr) (src : List Nat) : PointRepr × Bool :=
  if src.length = 1 then
    if src.headD 0 ≠ 0x00 then (v, false)
    else (⟨0, 1, 0, true⟩, true)
  else if src.length = 33 then
    if src.headD 0 ≠ 0x03 ∧ src.headD 0 ≠ 0x02 then (v, false)
    else
      let x := xCoordOf src
      if pVal ≤ x then (v, false)
      else
        let s := feSqrt (maybeYY x)
        if s.2 ≠ 1 then (v, false)
        else
          let yNeg := feNeg s.1
          let tagEq := if feIsOdd s.1 = src.headD 0 % 2 then 1 else 0
          (⟨x, if tagEq ≠ 0 then s.1 else yNeg, 1, true⟩, true)
  else if src.length = 65 then
    if src.headD 0 ≠ 0x04 then (v, false)
    else
      let x := xCoordOf src
      if pVal ≤ x then (v, false)
      else
        let y := yCoordOf src
        if pVal ≤ y then (v, false)
        else
          if maybeYY x ≠ maybeXXXPlus7 y then (v, false)
          else (⟨x, y, 1, true⟩, true)
  else (v, false)

/-- C10.  `Point.SetBytes` is atomic on failure: whenever decoding fails the
receiver is exactly as it was before the call. -/
theorem setBytes_atomic_C10 (v : PointRepr) (src : List Nat) :
    (setBytes v src).2 = false → (setBytes v src).1 = v := by
  unfold setBytes
  dsimp only
  split_ifs <;> intro h <;> first | rfl | exact h.elim

/-- Witness for C10: a 2-byte input fails and leaves the receiver intact. -/
theorem setBytes_atomic_C10_witness :
    (setBytes ⟨5, 6, 7, true⟩ [1, 2]).2 = false ∧
    (setBytes ⟨5, 6, 7, true⟩ [1, 2]).1 = ⟨5, 6, 7, true⟩ :=
  ⟨by decide, setBytes_atomic_C10 ⟨5, 6, 7, true⟩ [1, 2] (by decide)⟩

/-- The rejection conditions of C4, stated as in the spec: bad length,
prefix inconsistent with length, non-canonical coordinate, compressed `x`
with no square root of `x³+7`, or uncompressed pair off the curve. -/
def decodeRejected (src : List Nat) : Prop :=
  (src.length ≠ 1 ∧ src.length ≠ 33 ∧ src.length ≠ 65) ∨
  (src.length = 1 ∧ src.headD 0 ≠ 0x00) ∨
  (src.length = 33 ∧ src.headD 0 ≠ 0x02 ∧ src.headD 0 ≠ 0x03) ∨
  (src.length = 65 ∧ src.headD 0 ≠ 0x04) ∨
  (src.length = 33 ∧ (src.headD 0 = 0x02 ∨ src.headD 0 = 0x03) ∧
    pVal ≤ xCoordOf src) ∨
  (src.length = 65 ∧ src.headD 0 = 0x04 ∧
    (pVal ≤ xCoordOf src ∨ pVal ≤ yCoordOf src)) ∨
  (src.length = 33 ∧ (src.headD 0 = 0x02 ∨ src.headD 0 = 0x03) ∧
    xCoordOf src < pVal ∧
    ¬∃ y, y < pVal ∧ y * y % pVal = (xCoordOf src ^ 3 + 7) % pVal) ∨
  (src.length = 65 ∧ src.headD 0 = 0x04 ∧
    xCoordOf src < pVal ∧ yCoordOf src < pVal ∧
    yCoordOf src * yCoordOf src % pVal ≠ (xCoordOf src ^ 3 + 7) % pVal)

theorem maybeYY_eq (x : Nat) : maybeYY x = (x ^ 3 + 7) % pVal := by
  unfold maybeYY feAdd feMul feSquare
  rw [Nat.mod_mul_mod, Nat.mod_add_mod]
  congr 2
  ring

/-- The curve has no point with `y = 0`: `-7` is not a cube mod `p`
(checked by computing `(-7)^((p-1)/3) ≠ 1`). -/
theorem x_cubed_plus_seven_ne_zero (x : Nat) : (x ^ 3 + 7) % pVal ≠ 0 := by
  intro hcontra
  have hx0 : ((x : ZMod pVal)) ^ 3 = -(7 : ZMod pVal) := by
    have hc : ((x ^ 3 + 7 : ℕ) : ZMod pVal) = 0 := by
      rw [← natCast_mod_pVal (x ^ 3 + 7), hcontra]
      exact Nat.cast_zero
    push_cast at hc
    exact eq_neg_of_add_eq_zero_left hc
  have hxne : (x : ZMod pVal) ≠ 0 := by
    intro h0
    rw [h0] at hx0
    have h00 : (0 : ZMod pVal) ^ 3 = 0 := by norm_num
    rw [h00] at hx0
    have h7 : (7 : ZMod pVal) = 0 := neg_eq_zero.mp hx0.symm
    have h7n : ((7 : ℕ) : ZMod pVal) = ((0 : ℕ) : ZMod pVal) := by
      exact_mod_cast h7
    have := natCast_zmod_inj pVal 7 0 (by decide) (by decide) h7n
    omega
  have hpow : (-(7 : ZMod pVal)) ^ ((pVal - 1) / 3) = 1 := by
    rw [← hx0, ← pow_mul]
    rw [show 3 * ((pVal - 1) / 3) = pVal - 1 from by decide]
    exact ZMod.pow_card_sub_one_eq_one hxne
  have hcast : ((pVal - 7 : ℕ) : ZMod pVal) = -(7 : ZMod pVal) := by
    have h0 : (((pVal - 7) + 7 : ℕ) : ZMod pVal) = 0 := by
      rw [show (pVal - 7) + 7 = pVal from by decide]
      exact ZMod.natCast_self pVal
    push_cast at h0
    exact eq_neg_of_add_eq_zero_left h0
  have hC : ((powMod pVal (pVal - 7) ((pVal - 1) / 3) : ℕ) : ZMod pVal)
      = ((1 : ℕ) : ZMod pVal) := by
    rw [powMod_cast_zmod, hcast, hpow]
    exact Nat.cast_one.symm
  have := natCast_zmod_inj pVal _ 1 (powMod_lt _ _ _ pVal_pos) (by decide) hC
  have hne : powMod pVal (pVal - 7) ((pVal - 1) / 3) ≠ 1 := by decide
  exact hne this

/-- Negation preserves squares mod `p`. -/
theorem feSquare_feNeg (y : Nat) (hy : y < pVal) :
    feSquare (feNeg y) = feSquare y := by
  apply natCast_zmod_inj pVal _ _ (Nat.mod_lt _ pVal_pos) (Nat.mod_lt _ pVal_pos)
  show (((pVal - y) % pVal * ((pVal - y) % pVal) % pVal : ℕ) : ZMod pVal) = _
  rw [natCast_mod_pVal, Nat.cast_mul, natCast_mod_pVal]
  have hyneg : ((pVal - y : ℕ) : ZMod pVal) = -(y : ZMod pVal) := by
    have h0 : (((pVal - y) + y : ℕ) : ZMod pVal) = 0 := by
      rw [show (pVal - y) + y = pVal from by omega]
      exact ZMod.natCast_self pVal
    push_cast at h0
    exact eq_neg_of_add_eq_zero_left h0
  rw [hyneg]
  show (-(y : ZMod pVal)) * (-(y : ZMod pVal)) = ((y * y % pVal : ℕ) : ZMod pVal)
  rw [natCast_mod_pVal]
  push_cast
  ring

/-- The negation of a nonzero `y < p` flips parity (`p` is odd). -/
theorem feNeg_parity (y : Nat) (hy : y < pVal) (hy0 : y ≠ 0) :
    feNeg y % 2 ≠ y % 2 := by
  have hp : 0 < pVal := pVal_pos
  unfold feNeg
  rw [Nat.mod_eq_of_lt (show pVal - y < pVal by omega)]
  have hodd : pVal % 2 = 1 := by decide
  omega

theorem feSqrt_snd_iff (a : Nat) :
    (feSqrt a).2 = 1 ↔ feSquare (feSqrtCand a) = a := by
  unfold feSqrt
  by_cases h : feSquare (feSqrtCand a) = a <;> simp [h]

theorem feSqrt_fst_of_ok (a : Nat) (h : (feSqrt a).2 = 1) :
    (feSqrt a).1 = feSqrtCand a := by
  unfold feSqrt at h ⊢
  by_cases hc : feSquare (feSqrtCand a) = a <;> simp [hc] at h ⊢

theorem feSqrtCand_lt (a : Nat) : feSqrtCand a < pVal := by
  unfold feSqrtCand feSquare
  exact Nat.mod_lt _ pVal_pos

theorem feNeg_lt (a : Nat) : feNeg a < pVal := Nat.mod_lt _ pVal_pos

theorem maybeYY_lt (x : Nat) : maybeYY x < pVal := by
  unfold maybeYY feAdd
  exact Nat.mod_lt _ pVal_pos

theorem ite_flag_ne_zero (c : Prop) [Decidable c] (A B : Nat) :
    (if (if c then (1 : Nat) else 0) ≠ 0 then A else B) = if c then A else B := by
  by_cases h : c <;> simp [h]

set_option maxHeartbeats 2000000 in
/-- C4.  `Point.SetBytes` fails exactly on the spec's rejection conditions
(bad length; prefix/length mismatch; `x ≥ p` or `y ≥ p`; compressed `x`
whose `x³+7` has no square root; uncompressed pair violating `y² = x³+7`);
otherwise it succeeds with the identity (1-byte case), or the affine point
with the `y`-parity selected by the compressed prefix, or the encoded
uncompressed pair. -/
theorem point_setBytes_C4 (v : PointRepr) (src : List Nat) :
    ((setBytes v src).2 = false ↔ decodeRejected src) ∧
    ((setBytes v src).2 = true →
      (src.length = 1 → (setBytes v src).1 = ⟨0, 1, 0, true⟩) ∧
      (src.length = 33 →
        (setBytes v src).1.x = xCoordOf src ∧
        (setBytes v src).1.z = 1 ∧
        (setBytes v src).1.isValid = true ∧
        (setBytes v src).1.y < pVal ∧
        (setBytes v src).1.y * (setBytes v src).1.y % pVal
          = (xCoordOf src ^ 3 + 7) % pVal ∧
        (setBytes v src).1.y % 2 = src.headD 0 % 2) ∧
      (src.length = 65 →
        (setBytes v src).1 = ⟨xCoordOf src, yCoordOf src, 1, true⟩)) := by
  by_cases h1 : src.length = 1
  · by_cases hpref : src.headD 0 = 0
    · have hval : setBytes v src = (⟨0, 1, 0, true⟩, true) := by
        unfold setBytes
        rw [if_pos h1, if_neg (show ¬ src.headD 0 ≠ 0 from fun h => h hpref)]
      rw [hval]
      constructor
      · constructor
        · intro hff; exact absurd hff (by simp)
        · intro hrej
          exfalso
          rcases hrej with ⟨ha, _, _⟩ | ⟨_, hb⟩ | ⟨hc, _⟩ | ⟨hc, _⟩ | ⟨hc, _⟩
            | ⟨hc, _⟩ | ⟨hc, _⟩ | ⟨hc, _⟩ <;> omega
      · intro _
        exact ⟨fun _ => rfl, fun hc => absurd hc (by omega),
          fun hc => absurd hc (by omega)⟩
    · have hval : setBytes v src = (v, false) := by
        unfold setBytes
        rw [if_pos h1, if_pos (show src.headD 0 ≠ 0 from hpref)]
      rw [hval]
      refine ⟨⟨fun _ => Or.inr (Or.inl ⟨h1, hpref⟩), fun _ => rfl⟩,
        fun hcontra => absurd hcontra (by simp)⟩
  · by_cases h33 : src.length = 33
    · by_cases hpref : src.headD 0 = 2 ∨ src.headD 0 = 3
      · have hprefGuard : ¬(src.headD 0 ≠ 0x03 ∧ src.headD 0 ≠ 0x02) := fun hg => by
          rcases hpref with h | h
          · exact hg.2 h
          · exact hg.1 h
        by_cases hx : pVal ≤ xCoordOf src
        · have hval : setBytes v src = (v, false) := by
            unfold setBytes
            dsimp only
            rw [if_neg h1, if_pos h33, if_neg hprefGuard, if_pos hx]
          rw [hval]
          refine ⟨⟨fun _ => ?_, fun _ => rfl⟩, fun hcontra => absurd hcontra (by simp)⟩
          exact Or.inr (Or.inr (Or.inr (Or.inr (Or.inl ⟨h33, hpref, hx⟩))))
        · push_neg at hx
          by_cases hsq : (feSqrt (maybeYY (xCoordOf src))).2 = 1
          · have hval : setBytes v src =
                (⟨xCoordOf src,
                  if feIsOdd (feSqrt (maybeYY (xCoordOf src))).1 = src.headD 0 % 2
                  then (feSqrt (maybeYY (xCoordOf src))).1
                  else feNeg (feSqrt (maybeYY (xCoordOf src))).1, 1, true⟩, true) := by
              unfold setBytes
              dsimp only
              rw [if_neg h1, if_pos h33, if_neg hprefGuard,
                if_neg (show ¬ pVal ≤ xCoordOf src by omega),
                if_neg (show ¬ (feSqrt (maybeYY (xCoordOf src))).2 ≠ 1 from fun h => h hsq),
                ite_flag_ne_zero]
            have hr := (feSqrt_snd_iff _).mp hsq
            have hfst := feSqrt_fst_of_ok _ hsq
            have hrlt : (feSqrt (maybeYY (xCoordOf src))).1 < pVal := by
              rw [hfst]; exact feSqrtCand_lt _
            have hrsq : (feSqrt (maybeYY (xCoordOf src))).1
                * (feSqrt (maybeYY (xCoordOf src))).1 % pVal
                = (xCoordOf src ^ 3 + 7) % pVal := by
              show feSquare (feSqrt (maybeYY (xCoordOf src))).1 = _
              rw [hfst, hr, maybeYY_eq]
            have hr0 : (feSqrt (maybeYY (xCoordOf src))).1 ≠ 0 := by
              intro h0
              apply x_cubed_plus_seven_ne_zero (xCoordOf src)
              rw [← hrsq, h0]
              simp
            rw [hval]
            constructor
            · constructor
              · intro hcontra; exact absurd hcontra (by simp)
              · intro hrej
                exfalso
                rcases hrej with ⟨ha, _, _⟩ | ⟨hb, _⟩ | ⟨_, hc2, hc3⟩ | ⟨hc, _⟩
                  | ⟨_, _, hd⟩ | ⟨hc, _⟩ | ⟨_, _, _, hex⟩ | ⟨hc, _⟩
                · omega
                · omega
                · rcases hpref with h | h <;> omega
                · omega
                · omega
                · omega
                · exact hex ⟨(feSqrt (maybeYY (xCoordOf src))).1, hrlt, hrsq⟩
                · omega
            · intro _
              refine ⟨fun hc => absurd hc (by omega), fun _ => ?_,
                fun hc => absurd hc (by omega)⟩
              refine ⟨rfl, rfl, rfl, ?_, ?_, ?_⟩
              · show (if feIsOdd (feSqrt (maybeYY (xCoordOf src))).1 = src.headD 0 % 2
                  then (feSqrt (maybeYY (xCoordOf src))).1
                  else feNeg (feSqrt (maybeYY (xCoordOf src))).1) < pVal
                split_ifs
                · exact hrlt
                · exact feNeg_lt _
              · show (if feIsOdd (feSqrt (maybeYY (xCoordOf src))).1 = src.headD 0 % 2
                  then (feSqrt (maybeYY (xCoordOf src))).1
                  else feNeg (feSqrt (maybeYY (xCoordOf src))).1)
                  * (if feIsOdd (feSqrt (maybeYY (xCoordOf src))).1 = src.headD 0 % 2
                  then (feSqrt (maybeYY (xCoordOf src))).1
                  else feNeg (feSqrt (maybeYY (xCoordOf src))).1) % pVal = _
                split_ifs
                · exact hrsq
                · have hneg := feSquare_feNeg _ hrlt
                  unfold feSquare at hneg
                  rw [hneg]
                  exact hrsq
              · show (if feIsOdd (feSqrt (maybeYY (xCoordOf src))).1 = src.headD 0 % 2
                  then (feSqrt (maybeYY (xCoordOf src))).1
                  else feNeg (feSqrt (maybeYY (xCoordOf src))).1) % 2 = src.headD 0 % 2
                split_ifs with htag
                · unfold feIsOdd at htag
                  exact htag
                · have hflip := feNeg_parity _ hrlt hr0
                  unfold feIsOdd at htag
                  have hp2 : src.headD 0 % 2 < 2 := Nat.mod_lt _ (by omega)
                  have ha2 : (feSqrt (maybeYY (xCoordOf src))).1 % 2 < 2 :=
                    Nat.mod_lt _ (by omega)
                  have hb2 : feNeg (feSqrt (maybeYY (xCoordOf src))).1 % 2 < 2 :=
                    Nat.mod_lt _ (by omega)
                  omega
          · have hval : setBytes v src = (v, false) := by
              unfold setBytes
              dsimp only
              rw [if_neg h1, if_pos h33, if_neg hprefGuard,
                if_neg (show ¬ pVal ≤ xCoordOf src by omega),
                if_pos (show (feSqrt (maybeYY (xCoordOf src))).2 ≠ 1 from hsq)]
            rw [hval]
            refine ⟨⟨fun _ => ?_, fun _ => rfl⟩, fun hcontra => absurd hcontra (by simp)⟩
            refine Or.inr (Or.inr (Or.inr (Or.inr (Or.inr (Or.inr (Or.inl
              ⟨h33, hpref, hx, ?_⟩))))))
            intro hex
            obtain ⟨y, hylt, hysq⟩ := hex
            apply hsq
            rw [feSqrt_snd_iff]
            apply feSqrtCand_sq_of_qr (maybeYY (xCoordOf src)) y (maybeYY_lt _)
            rw [maybeYY_eq]
            exact hysq
      · have hprefGuard : src.headD 0 ≠ 0x03 ∧ src.headD 0 ≠ 0x02 := by
          push_neg at hpref
          exact ⟨hpref.2, hpref.1⟩
        have hval : setBytes v src = (v, false) := by
          unfold setBytes
          dsimp only
          rw [if_neg h1, if_pos h33, if_pos hprefGuard]
        rw [hval]
        refine ⟨⟨fun _ => ?_, fun _ => rfl⟩, fun hcontra => absurd hcontra (by simp)⟩
        exact Or.inr (Or.inr (Or.inl ⟨h33, hprefGuard.2, hprefGuard.1⟩))
    · by_cases h65 : src.length = 65
      · by_cases hpref : src.headD 0 = 4
        · by_cases hx : pVal ≤ xCoordOf src
          · have hval : setBytes v src = (v, false) := by
              unfold setBytes
              dsimp only
              rw [if_neg h1, if_neg h33, if_pos h65,
                if_neg (show ¬ src.headD 0 ≠ 4 from fun h => h hpref), if_pos hx]
            rw [hval]
            refine ⟨⟨fun _ => ?_, fun _ => rfl⟩, fun hcontra => absurd hcontra (by simp)⟩
            exact Or.inr (Or.inr (Or.inr (Or.inr (Or.inr (Or.inl
              ⟨h65, hpref, Or.inl hx⟩)))))
          · push_neg at hx
            by_cases hy : pVal ≤ yCoordOf src
            · have hval : setBytes v src = (v, false) := by
                unfold setBytes
                dsimp only
                rw [if_neg h1, if_neg h33, if_pos h65,
                  if_neg (show ¬ src.headD 0 ≠ 4 from fun h => h hpref),
                  if_neg (show ¬ pVal ≤ xCoordOf src by omega), if_pos hy]
              rw [hval]
              refine ⟨⟨fun _ => ?_, fun _ => rfl⟩,
                fun hcontra => absurd hcontra (by simp)⟩
              exact Or.inr (Or.inr (Or.inr (Or.inr (Or.inr (Or.inl
                ⟨h65, hpref, Or.inr hy⟩)))))
            · push_neg at hy
              by_cases hcurve : maybeYY (xCoordOf src) = maybeXXXPlus7 (yCoordOf src)
              · have hval : setBytes v src =
                    (⟨xCoordOf src, yCoordOf src, 1, true⟩, true) := by
                  unfold setBytes
                  dsimp only
                  rw [if_neg h1, if_neg h33, if_pos h65,
                    if_neg (show ¬ src.headD 0 ≠ 4 from fun h => h hpref),
                    if_neg (show ¬ pVal ≤ xCoordOf src by omega),
                    if_neg (show ¬ pVal ≤ yCoordOf src by omega),
                    if_neg (show ¬ maybeYY (xCoordOf src)
                      ≠ maybeXXXPlus7 (yCoordOf src) from fun h => h hcurve)]
                rw [hval]
                have hcv : yCoordOf src * yCoordOf src % pVal
                    = (xCoordOf src ^ 3 + 7) % pVal := by
                  have hc2 := hcurve.symm
                  unfold maybeXXXPlus7 feSquare at hc2
                  rw [hc2, maybeYY_eq]
                constructor
                · constructor
                  · intro hcontra; exact absurd hcontra (by simp)
                  · intro hrej
                    exfalso
                    rcases hrej with ⟨ha, _, _⟩ | ⟨hb, _⟩ | ⟨hc, _⟩ | ⟨_, hc⟩
                      | ⟨hc, _⟩ | ⟨_, _, hd | hd⟩ | ⟨hc, _⟩ | ⟨_, _, _, _, hne⟩
                    · omega
                    · omega
                    · omega
                    · omega
                    · omega
                    · omega
                    · omega
                    · omega
                    · exact hne hcv
                · intro _
                  exact ⟨fun hc => absurd hc (by omega), fun hc => absurd hc (by omega),
                    fun _ => rfl⟩
              · have hval : setBytes v src = (v, false) := by
                  unfold setBytes
                  dsimp only
                  rw [if_neg h1, if_neg h33, if_pos h65,
                    if_neg (show ¬ src.headD 0 ≠ 4 from fun h => h hpref),
                    if_neg (show ¬ pVal ≤ xCoordOf src by omega),
                    if_neg (show ¬ pVal ≤ yCoordOf src by omega),
                    if_pos (show maybeYY (xCoordOf src)
                      ≠ maybeXXXPlus7 (yCoordOf src) from hcurve)]
                rw [hval]
                refine ⟨⟨fun _ => ?_, fun _ => rfl⟩,
                  fun hcontra => absurd hcontra (by simp)⟩
                refine Or.inr (Or.inr (Or.inr (Or.inr (Or.inr (Or.inr (Or.inr
                  ⟨h65, hpref, hx, hy, ?_⟩))))))
                intro hcontra
                apply hcurve
                unfold maybeXXXPlus7 feSquare
                rw [maybeYY_eq]
                exact hcontra.symm
        · have hval : setBytes v src = (v, false) := by
            unfold setBytes
            dsimp only
            rw [if_neg h1, if_neg h33, if_pos h65,
              if_pos (show src.headD 0 ≠ 4 from hpref)]
          rw [hval]
          refine ⟨⟨fun _ => ?_, fun _ => rfl⟩, fun hcontra => absurd hcontra (by simp)⟩
          exact Or.inr (Or.inr (Or.inr (Or.inl ⟨h65, hpref⟩)))
      · have hval : setBytes v src = (v, false) := by
          unfold setBytes
          rw [if_neg h1, if_neg h33, if_neg h65]
        rw [hval]
        refine ⟨⟨fun _ => ?_, fun _ => rfl⟩, fun hcontra => absurd hcontra (by simp)⟩
        exact Or.inl ⟨h1, h33, h65⟩

/-- Witness for C4: decoding the 1-byte identity encoding succeeds. -/
theorem point_setBytes_C4_witness :
    ((setBytes ⟨9, 9, 9, true⟩ [0]).2 = false ↔ decodeRejected [0]) ∧
    ((setBytes ⟨9, 9, 9, true⟩ [0]).2 = true →
      (([0] : List Nat).length = 1 →
        (setBytes ⟨9, 9, 9, true⟩ [0]).1 = ⟨0, 1, 0, true⟩) ∧
      (([0] : List Nat).length = 33 →
        (setBytes ⟨9, 9, 9, true⟩ [0]).1.x = xCoordOf [0] ∧
        (setBytes ⟨9, 9, 9, true⟩ [0]).1.z = 1 ∧
        (setBytes ⟨9, 9, 9, true⟩ [0]).1.isValid = true ∧
        (setBytes ⟨9, 9, 9, true⟩ [0]).1.y < pVal ∧
        (setBytes ⟨9, 9, 9, true⟩ [0]).1.y * (setBytes ⟨9, 9, 9, true⟩ [0]).1.y % pVal
          = (xCoordOf [0] ^ 3 + 7) % pVal ∧
        (setBytes ⟨9, 9, 9, true⟩ [0]).1.y % 2 = ([0] : List Nat).headD 0 % 2) ∧
      (([0] : List Nat).length = 65 →
        (setBytes ⟨9, 9, 9, true⟩ [0]).1 = ⟨xCoordOf [0], yCoordOf [0], 1, true⟩)) :=
  point_setBytes_C4 ⟨9, 9, 9, true⟩ [0]

/-! ## Windowed point-multiplication tables (point_table.go)

The complete/mixed point addition and doubling formulas live in a source
file not among the provided ones (the Renes-Costello-Batina formulas), so
points are modelled as elements of an abstract additive commutative group,
with `addComplete x y = x + y` and `doubleComplete x = x + x` exact. -/

section PointOps

variable {G : Type} [AddCommGroup G]

/-- The masked constant-time scan of `affinePointMultTable.SelectAndAdd`:
`x`/`y` start zero-initialized (`azero`) and each of the 15 entries is
conditionally selected on `idx = i`. -/
def affineSelect {A : Type} (azero : A) (tbl : Fin 15 → A) (idx : Nat) : A :=
  (List.finRange 15).foldl
    (fun acc j => if idx = (j : Nat) + 1 then tbl j else acc) azero

/-- `affinePointMultTable.SelectAndAdd` (point_table.go): masked scan,
mixed addition into a temporary, then a conditional select against `sum`
driven by the index-is-zero predicate.  `A` stands for the pair of affine
field elements and `addMixed` for the incomplete mixed-addition formula. -/
def SelectAndAdd {A : Type} (azero : A) (addMixed : G → A → G)
    (tbl : Fin 15 → A) (sum : G) (idx : Nat) : G :=
  let sel := affineSelect azero tbl idx
  let tmp := addMixed sum sel
  if idx = 0 then sum else tmp

theorem affineSelect_eq {A : Type} (azero : A) (tbl : Fin 15 → A) (idx : Nat)
    (h1 : 1 ≤ idx) (h15 : idx ≤ 15) :
    affineSelect azero tbl idx = tbl ⟨idx - 1, by omega⟩ := by
  interval_cases idx <;> rfl

theorem selectAndAdd_eq {A : Type} (azero : A) (addMixed : G → A → G)
    (P : G) (tbl : Fin 15 → A) (sum : G) (idx : Nat) (hidx : idx ≤ 15)
    (hadd : ∀ (s : G) (j : Fin 15), addMixed s (tbl j) = s + ((j : Nat) + 1) • P) :
    SelectAndAdd azero addMixed tbl sum idx = sum + idx • P := by
  unfold SelectAndAdd
  dsimp only
  by_cases h0 : idx = 0
  · rw [if_pos h0, h0]
    simp
  · rw [if_neg h0, affineSelect_eq azero tbl idx (by omega) hidx, hadd]
    congr 2
    show idx - 1 + 1 = idx
    omega

/-- C9.  `affinePointMultTable.SelectAndAdd` adds `idx·P` to `sum` for
every table of multiples `[1P, ..., 15P]` and every `idx ∈ [0, 15]`: the
mixed-addition formula `addMixed` is wholly unconstrained on the
zero-initialized scratch operand selected when `idx = 0` (where the
incomplete formula produces garbage), because the final masked select
driven by the index-is-zero predicate returns `sum` unchanged there. -/
theorem selectAndAdd_C9 {A : Type} (azero : A) (addMixed : G → A → G)
    (P : G) (tbl : Fin 15 → A) (sum : G) (idx : Nat) (hidx : idx ≤ 15)
    (hadd : ∀ (s : G) (j : Fin 15), addMixed s (tbl j) = s + ((j : Nat) + 1) • P) :
    SelectAndAdd azero addMixed tbl sum idx = sum + idx • P :=
  selectAndAdd_eq azero addMixed P tbl sum idx hidx hadd

/-- Witness for C9 over `ℤ` with `P = 1`, table entries `j + 1`, garbage
scratch value `0`, exact `addMixed`, `sum = 5`, `idx = 3`. -/
theorem selectAndAdd_C9_witness :
    SelectAndAdd (0 : ℤ) (fun s a => s + a)
      (fun j : Fin 15 => ((j : Nat) : ℤ) + 1) 5 3 = 5 + 3 • (1 : ℤ) :=
  selectAndAdd_C9 0 (fun s a => s + a) 1 (fun j => ((j : Nat) : ℤ) + 1) 5 3
    (by decide) (fun s j => by simp)

end PointOps

/-- Both halves of the GLV split are reduced scalars. -/
theorem splitVartime_lt (k : Nat) :
    (splitVartime k).1 < nVal ∧ (splitVartime k).2 < nVal := by
  constructor <;> exact Nat.mod_lt _ nVal_pos

/-! ## The scalar-multiplication engines (point_mul.go, unnamed/part_002,
point_mul_glv.go) -/

section PointMul

variable {G : Type} [AddCommGroup G]

/-- `Point.doubleComplete`: exact doubling (formula file not in sources). -/
def doubleComplete (x : G) : G := x + x

/-- Four consecutive `doubleComplete`s, as in the 4-bit window loops. -/
def dub4 (v : G) : G := doubleComplete (doubleComplete (doubleComplete (doubleComplete v)))

theorem doubleComplete_eq (x : G) : doubleComplete x = 2 • x := (two_nsmul x).symm

theorem dub4_eq (v : G) : dub4 v = 16 • v := by
  simp only [dub4, doubleComplete_eq, smul_smul]
  norm_num

/-- `newProjectivePointMultTable` (point_table.go): `tbl[0] = p`; odd `i`
doubles entry `i/2`; even `i ≥ 2` adds `p` to entry `i-1`. -/
def projTableEntry (p : G) : Nat → G
  | 0 => p
  | i + 1 =>
    if (i + 1) % 2 = 1 then
      projTableEntry p ((i + 1) / 2) + projTableEntry p ((i + 1) / 2)
    else projTableEntry p i + p
termination_by i => i
decreasing_by all_goals omega

theorem projTableEntry_eq (p : G) (j : Nat) : projTableEntry p j = (j + 1) • p := by
  induction j using Nat.strong_induction_on with
  | _ j ih =>
    rcases j with _ | i
    · rw [projTableEntry]
      simp
    · rw [projTableEntry]
      by_cases hodd : (i + 1) % 2 = 1
      · rw [if_pos hodd, ih ((i + 1) / 2) (by omega), ← add_nsmul]
        congr 1
        omega
      · rw [if_neg hodd, ih i (by omega), ← succ_nsmul]

/-- `projectivePointMultTable.SelectAndAddVartime`. -/
def projSelectAndAddVartime (tbl : Nat → G) (sum : G) (idx : Nat) : G :=
  if idx = 0 then sum else sum + tbl (idx - 1)

/-- `lookupProjectivePoint`: masked constant-time scan of the table,
starting from the identity. -/
def maskedLookup (tbl : Nat → G) (idx : Nat) : G :=
  (List.finRange 15).foldl
    (fun acc j => if idx = (j : Nat) + 1 then tbl (j : Nat) else acc) 0

/-- `projectivePointMultTable.SelectAndAdd`. -/
def projSelectAndAdd (tbl : Nat → G) (sum : G) (idx : Nat) : G :=
  sum + maskedLookup tbl idx

theorem maskedLookup_eq (tbl : Nat → G) (idx : Nat) (h1 : 1 ≤ idx) (h2 : idx ≤ 15) :
    maskedLookup tbl idx = tbl (idx - 1) := by
  interval_cases idx <;> rfl

theorem projSelectAndAddVartime_eq (p : G) (sum : G) (idx : Nat) (h : idx ≤ 15) :
    projSelectAndAddVartime (projTableEntry p) sum idx = sum + idx • p := by
  unfold projSelectAndAddVartime
  by_cases h0 : idx = 0
  · rw [if_pos h0, h0]
    simp
  · rw [if_neg h0, projTableEntry_eq]
    congr 2
    omega

theorem projSelectAndAdd_eq (p : G) (sum : G) (idx : Nat) (h : idx ≤ 15) :
    projSelectAndAdd (projTableEntry p) sum idx = sum + idx • p := by
  unfold projSelectAndAdd
  by_cases h0 : idx = 0
  · rw [h0, show maskedLookup (projTableEntry p) 0 = 0 from rfl]
    simp
  · rw [maskedLookup_eq _ _ (by omega) h, projTableEntry_eq]
    congr 2
    omega

/-- One iteration of the 4-bit window loops: select the high nibble,
double four times, select the low nibble. -/
def multLoopBody (sel : G → Nat → G) (v : G) (b : Nat) : G :=
  sel (dub4 (sel v (b / 16))) (b % 16)

/-- The window loop of `ScalarMult`/`scalarMultVartime` after the first
byte: four doublings, then the body. -/
def multLoop (sel : G → Nat → G) : List Nat → G → G
  | [], v => v
  | b :: rest, v => multLoop sel rest (multLoopBody sel (dub4 v) b)

/-- The full engine: identity start, first byte skips the doublings. -/
def multEngine (sel : G → Nat → G) : List Nat → G
  | [] => 0
  | b :: rest => multLoop sel rest (multLoopBody sel 0 b)

theorem multLoopBody_eq (p : G) (sel : G → Nat → G)
    (hsel : ∀ (v : G) (i : Nat), i ≤ 15 → sel v i = v + i • p)
    (v : G) (b : Nat) (hb : b < 256) :
    multLoopBody sel v b = 16 • v + b • p := by
  unfold multLoopBody
  rw [hsel v (b / 16) (by omega), dub4_eq, hsel _ (b % 16) (by omega)]
  rw [smul_add, smul_smul]
  have hb16 : 16 * (b / 16) + b % 16 = b := by omega
  conv_rhs => rw [← hb16]
  rw [add_nsmul]
  abel

theorem multLoop_eq (p : G) (sel : G → Nat → G)
    (hsel : ∀ (v : G) (i : Nat), i ≤ 15 → sel v i = v + i • p)
    (bytes : List Nat) (hb : ∀ b ∈ bytes, b < 256) (v : G) :
    multLoop sel bytes v = 256 ^ bytes.length • v + natOfBytesBE bytes • p := by
  induction bytes generalizing v with
  | nil => simp [multLoop, natOfBytesBE]
  | cons b rest ih =>
    rw [multLoop, ih (fun x hx => hb x (List.mem_cons_of_mem b hx)),
      multLoopBody_eq p sel hsel _ b (hb b (List.mem_cons_self b rest)), dub4_eq]
    show 256 ^ rest.length • (16 • 16 • v + b • p) + natOfBytesBE rest • p
      = 256 ^ (b :: rest).length • v
        + (b * 256 ^ rest.length + natOfBytesBE rest) • p
    rw [List.length_cons, smul_add, smul_smul, smul_smul, smul_smul, add_nsmul]
    have h1 : 256 ^ rest.length * 16 * 16 = 256 ^ (rest.length + 1) := by
      ring
    have h2 : 256 ^ rest.length * b = b * 256 ^ rest.length := by ring
    rw [h1, h2]
    abel

theorem multEngine_eq (p : G) (sel : G → Nat → G)
    (hsel : ∀ (v : G) (i : Nat), i ≤ 15 → sel v i = v + i • p)
    (bytes : List Nat) (hb : ∀ b ∈ bytes, b < 256) :
    multEngine sel bytes = natOfBytesBE bytes • p := by
  cases bytes with
  | nil => simp [multEngine, natOfBytesBE]
  | cons b rest =>
    rw [multEngine, multLoop_eq p sel hsel rest
        (fun x hx => hb x (List.mem_cons_of_mem b hx)),
      multLoopBody_eq p sel hsel _ b (hb b (List.mem_cons_self b rest))]
    show 256 ^ rest.length • (16 • (0 : G) + b • p) + natOfBytesBE rest • p
      = (b * 256 ^ rest.length + natOfBytesBE rest) • p
    rw [smul_zero, zero_add, smul_smul, add_nsmul]
    have h2 : 256 ^ rest.length * b = b * 256 ^ rest.length := by ring
    rw [h2]

/-- `Point.ScalarMult` (constant-time, 4-bit windows, masked table scan). -/
def ScalarMult (s : Nat) (p : G) : G :=
  multEngine (projSelectAndAdd (projTableEntry p)) (bytesBE 32 s)

/-- `Point.scalarMultVartime` (vartime table lookup). -/
def scalarMultVartime (s : Nat) (p : G) : G :=
  multEngine (projSelectAndAddVartime (projTableEntry p)) (bytesBE 32 s)

theorem ScalarMult_eq (s : Nat) (p : G) (hs : s < 2 ^ 256) :
    ScalarMult s p = s • p := by
  unfold ScalarMult
  rw [multEngine_eq p _ (projSelectAndAdd_eq p) _ (bytesBE_lt 32 s),
    natOfBytesBE_bytesBE_of_lt 32 s (by norm_num at hs ⊢; omega)]

theorem scalarMultVartime_eq (s : Nat) (p : G) (hs : s < 2 ^ 256) :
    scalarMultVartime s p = s • p := by
  unfold scalarMultVartime
  rw [multEngine_eq p _ (projSelectAndAddVartime_eq p) _ (bytesBE_lt 32 s),
    natOfBytesBE_bytesBE_of_lt 32 s (by norm_num at hs ⊢; omega)]

end PointMul

section BaseMul

variable {G : Type} [AddCommGroup G]

/-- Modelled from the spec: the embedded generator table blob
(`internal/gentable/point_mul_table.bin`) is not among the provided
sources; per spec, huge table entry `(t, j)` is the affine encoding of
`(j+1)·2^(8t)·G`.  Entries are modelled as group elements. -/
def generatorHugeAffineTable (g : G) : Nat → Nat → G :=
  fun t j => ((j + 1) * 2 ^ (8 * t)) • g

/-- `hugeAffinePointMultTable.SelectAndAddVartime` (unnamed/part_002). -/
def hugeSelectAndAddVartime (tbl : Nat → Nat → G) (sum : G) (tableIdx idx : Nat) : G :=
  if idx = 0 then sum else sum + tbl tableIdx (idx - 1)

/-- The loop of `Point.scalarBaseMultVartime` (unnamed/part_002): one 8-bit
window per byte; `tableIdx = ScalarSize - (1 + i)` is the length of the
remaining byte list. -/
def baseLoopVartime (g : G) : List Nat → G → G
  | [], v => v
  | b :: rest, v =>
      baseLoopVartime g rest
        (hugeSelectAndAddVartime (generatorHugeAffineTable g) v rest.length b)

/-- `Point.scalarBaseMultVartime` (unnamed/part_002). -/
def scalarBaseMultVartime (g : G) (s : Nat) : G :=
  baseLoopVartime g (bytesBE 32 s) 0

theorem pow256_eq (l : Nat) : (256 : Nat) ^ l = 2 ^ (8 * l) := by
  rw [pow_mul]
  norm_num

theorem baseLoopVartime_eq (g : G) (bytes : List Nat) (v : G) :
    baseLoopVartime g bytes v = v + natOfBytesBE bytes • g := by
  induction bytes generalizing v with
  | nil => simp [baseLoopVartime, natOfBytesBE]
  | cons b rest ih =>
    rw [baseLoopVartime, ih]
    show hugeSelectAndAddVartime (generatorHugeAffineTable g) v rest.length b
        + natOfBytesBE rest • g
      = v + (b * 256 ^ rest.length + natOfBytesBE rest) • g
    unfold hugeSelectAndAddVartime generatorHugeAffineTable
    by_cases h0 : b = 0
    · rw [if_pos h0, h0]
      simp
    · rw [if_neg h0]
      have hco : (b - 1 + 1) * 2 ^ (8 * rest.length) = b * 256 ^ rest.length := by
        rw [pow256_eq]
        congr 1
        omega
      rw [hco, add_nsmul]
      abel

theorem scalarBaseMultVartime_eq (g : G) (s : Nat) (hs : s < 2 ^ 256) :
    scalarBaseMultVartime g s = s • g := by
  unfold scalarBaseMultVartime
  rw [baseLoopVartime_eq, natOfBytesBE_bytesBE_of_lt 32 s (by norm_num at hs ⊢; omega),
    zero_add]

/-- `generatorSmallAffineTable` (unnamed/part_002): table `2i` holds the
first 15 entries of huge table `i`; table `2i+1` entry `j` holds huge
entry `16 + j·16 - 1`. -/
def generatorSmallAffineTable (g : G) : Nat → Nat → G := fun t j =>
  if t % 2 = 0 then generatorHugeAffineTable g (t / 2) j
  else generatorHugeAffineTable g (t / 2) (16 + j * 16 - 1)

/-- The loop of `Point.ScalarBaseMult` (unnamed/part_002): two masked
affine `SelectAndAdd`s per byte against tables `2·rl+1` and `2·rl` where
`rl` is the length of the remaining byte list (the decreasing
`tableIndex`). -/
def baseLoopCT (g : G) : List Nat → G → G
  | [], v => v
  | b :: rest, v =>
      let v1 := SelectAndAdd (0 : G) (fun s a => s + a)
        (fun j : Fin 15 => generatorSmallAffineTable g (2 * rest.length + 1) (j : Nat))
        v (b / 16)
      let v2 := SelectAndAdd (0 : G) (fun s a => s + a)
        (fun j : Fin 15 => generatorSmallAffineTable g (2 * rest.length) (j : Nat))
        v1 (b % 16)
      baseLoopCT g rest v2

/-- `Point.ScalarBaseMult` (constant-time, unnamed/part_002). -/
def ScalarBaseMult (g : G) (s : Nat) : G :=
  baseLoopCT g (bytesBE 32 s) 0

theorem smallTable_odd (g : G) (rl : Nat) (s : G) (j : Fin 15) :
    (fun s a => s + a) s
        (generatorSmallAffineTable g (2 * rl + 1) (j : Nat))
      = s + ((j : Nat) + 1) • ((16 * 2 ^ (8 * rl)) • g) := by
  show s + generatorSmallAffineTable g (2 * rl + 1) (j : Nat) = _
  unfold generatorSmallAffineTable generatorHugeAffineTable
  rw [if_neg (by omega), smul_smul]
  congr 1
  congr 1
  rw [show (2 * rl + 1) / 2 = rl from by omega,
    show 16 + (j : Nat) * 16 - 1 + 1 = ((j : Nat) + 1) * 16 from by omega]
  ring

theorem smallTable_even (g : G) (rl : Nat) (s : G) (j : Fin 15) :
    (fun s a => s + a) s
        (generatorSmallAffineTable g (2 * rl) (j : Nat))
      = s + ((j : Nat) + 1) • ((2 ^ (8 * rl)) • g) := by
  show s + generatorSmallAffineTable g (2 * rl) (j : Nat) = _
  unfold generatorSmallAffineTable generatorHugeAffineTable
  rw [if_pos (by omega), smul_smul]
  congr 1
  congr 1
  rw [show 2 * rl / 2 = rl from by omega]

theorem baseLoopCT_eq (g : G) (bytes : List Nat) (hb : ∀ b ∈ bytes, b < 256) (v : G) :
    baseLoopCT g bytes v = v + natOfBytesBE bytes • g := by
  induction bytes generalizing v with
  | nil => simp [baseLoopCT, natOfBytesBE]
  | cons b rest ih =>
    rw [baseLoopCT]
    rw [selectAndAdd_eq (0 : G) (fun s a => s + a) ((16 * 2 ^ (8 * rest.length)) • g)
        _ v (b / 16) (by have := hb b (List.mem_cons_self b rest); omega)
        (smallTable_odd g rest.length),
      selectAndAdd_eq (0 : G) (fun s a => s + a) ((2 ^ (8 * rest.length)) • g)
        _ _ (b % 16) (by omega) (smallTable_even g rest.length),
      ih (fun x hx => hb x (List.mem_cons_of_mem b hx))]
    show v + (b / 16) • (16 * 2 ^ (8 * rest.length)) • g
        + (b % 16) • (2 ^ (8 * rest.length)) • g + natOfBytesBE rest • g
      = v + (b * 256 ^ rest.length + natOfBytesBE rest) • g
    rw [smul_smul, smul_smul, add_nsmul]
    have hco : b / 16 * (16 * 2 ^ (8 * rest.length)) + b % 16 * 2 ^ (8 * rest.length)
        = b * 256 ^ rest.length := by
      rw [pow256_eq]
      have : b / 16 * (16 * 2 ^ (8 * rest.length)) + b % 16 * 2 ^ (8 * rest.length)
          = (16 * (b / 16) + b % 16) * 2 ^ (8 * rest.length) := by ring
      rw [this]
      congr 1
      omega
    calc v + (b / 16 * (16 * 2 ^ (8 * rest.length))) • g
          + (b % 16 * 2 ^ (8 * rest.length)) • g + natOfBytesBE rest • g
        = v + ((b / 16 * (16 * 2 ^ (8 * rest.length))
            + b % 16 * 2 ^ (8 * rest.length)) • g + natOfBytesBE rest • g) := by
          rw [add_nsmul]
          abel
      _ = _ := by rw [hco]

theorem ScalarBaseMult_eq (g : G) (s : Nat) (hs : s < 2 ^ 256) :
    ScalarBaseMult g s = s • g := by
  unfold ScalarBaseMult
  rw [baseLoopCT_eq g _ (bytesBE_lt 32 s),
    natOfBytesBE_bytesBE_of_lt 32 s (by norm_num at hs ⊢; omega), zero_add]

end BaseMul

section GLVMul

variable {G : Type} [AddCommGroup G]

/-- Reduction of a scalar multiple through the group order: if
`n·p = 0` then `a·p` depends only on `a mod n`. -/
theorem nsmul_congr (p : G) (hord : nVal • p = 0) {a b : Nat}
    (h : a % nVal = b % nVal) : a • p = b • p := by
  have key : ∀ c : Nat, c • p = (c % nVal) • p := by
    intro c
    conv_lhs => rw [← Nat.mod_add_div c nVal]
    rw [add_nsmul, mul_smul, smul_comm, hord, smul_zero, add_zero]
  rw [key a, key b, h]

/-- The byte-skip loop of `scalarMultVartimeGLV`: advance `off` while both
byte arrays are zero there, up to `fuel` steps. -/
def offSkip (b1 b2 : List Nat) : Nat → Nat → Nat
  | off, 0 => off
  | off, fuel + 1 =>
      if b1.getD off 0 ≠ 0 ∨ b2.getD off 0 ≠ 0 then off
      else offSkip b1 b2 (off + 1) fuel

theorem offSkip_ge (b1 b2 : List Nat) (fuel off : Nat) :
    off ≤ offSkip b1 b2 off fuel := by
  induction fuel generalizing off with
  | zero => exact Nat.le_refl _
  | succ fuel ih =>
    rw [offSkip]
    split_ifs
    · exact Nat.le_refl _
    · exact Nat.le_trans (by omega) (ih (off + 1))

theorem offSkip_le (b1 b2 : List Nat) (fuel off : Nat) :
    offSkip b1 b2 off fuel ≤ off + fuel := by
  induction fuel generalizing off with
  | zero => exact Nat.le_refl _
  | succ fuel ih =>
    rw [offSkip]
    split_ifs
    · omega
    · have := ih (off + 1)
      omega

theorem offSkip_zero (b1 b2 : List Nat) (fuel off : Nat) :
    ∀ i, off ≤ i → i < offSkip b1 b2 off fuel →
      b1.getD i 0 = 0 ∧ b2.getD i 0 = 0 := by
  induction fuel generalizing off with
  | zero =>
    intro i h1 h2
    rw [offSkip] at h2
    omega
  | succ fuel ih =>
    intro i h1 h2
    rw [offSkip] at h2
    split_ifs at h2 with hc
    · omega
    · push_neg at hc
      rcases Nat.eq_or_lt_of_le h1 with he | hlt
      · exact ⟨he ▸ hc.1, he ▸ hc.2⟩
      · exact ih (off + 1) i (by omega) h2

/-- Dropping the first `j` bytes of `bytesBE l v` leaves `bytesBE (l-j) v`. -/
theorem bytesBE_drop (l j v : Nat) (hj : j ≤ l) :
    (bytesBE l v).drop j = bytesBE (l - j) v := by
  induction j generalizing l with
  | zero => simp
  | succ j ih =>
    rcases l with _ | l
    · omega
    · rw [bytesBE, List.drop_succ_cons, ih l (by omega)]
      congr 1
      omega

/-- Leading bytes of a short value are zero. -/
theorem bytesBE_getD_zero (L l v : Nat) (hv : v < 256 ^ l) (hl : l ≤ L) :
    ∀ i, i < L - l → (bytesBE L v).getD i 0 = 0 := by
  induction L with
  | zero => intro i hi; omega
  | succ L ih =>
    intro i hi
    have hl' : l ≤ L := by omega
    rw [bytesBE]
    rcases i with _ | i
    · rw [List.getD_cons_zero]
      have hvL : v < 256 ^ L :=
        lt_of_lt_of_le hv (Nat.pow_le_pow_right (by omega) hl')
      rw [Nat.div_eq_of_lt hvL]
    · rw [List.getD_cons_succ]
      exact ih hl' i (by omega)

/-- Value of a byte string is unchanged by dropping a zero head. -/
theorem natOfBytesBE_drop_eq (l : List Nat) (j : Nat) (hj : j ≤ l.length)
    (h : ∀ i, i < j → l.getD i 0 = 0) :
    natOfBytesBE (l.drop j) = natOfBytesBE l := by
  induction j generalizing l with
  | zero => simp
  | succ j ih =>
    rcases l with _ | ⟨b, rest⟩
    · simp at hj
    · have hb : b = 0 := by
        have := h 0 (by omega)
        simpa using this
      rw [List.drop_succ_cons,
        ih rest (by simpa using hj) (fun i hi => by
          have := h (i + 1) (by omega)
          simpa using this)]
      show natOfBytesBE rest = b * 256 ^ rest.length + natOfBytesBE rest
      rw [hb]
      ring

theorem natOfBytesBE_cons (b : Nat) (l : List Nat) :
    natOfBytesBE (b :: l) = b * 256 ^ l.length + natOfBytesBE l := rfl

/-- One iteration of the dual-table GLV window loop. -/
def glvLoopBody (t1 t2 : Nat → G) (v : G) (b1 b2 : Nat) : G :=
  let v1 := projSelectAndAddVartime t1 v (b1 / 16)
  let v2 := projSelectAndAddVartime t2 v1 (b2 / 16)
  let v3 := dub4 v2
  let v4 := projSelectAndAddVartime t1 v3 (b1 % 16)
  let v5 := projSelectAndAddVartime t2 v4 (b2 % 16)
  v5

/-- The GLV window loop after the first byte pair. -/
def glvLoop (t1 t2 : Nat → G) : List (Nat × Nat) → G → G
  | [], v => v
  | (b1, b2) :: rest, v => glvLoop t1 t2 rest (glvLoopBody t1 t2 (dub4 v) b1 b2)

/-- The full GLV loop: identity start, first byte pair skips the doublings. -/
def glvEngine (t1 t2 : Nat → G) : List (Nat × Nat) → G
  | [] => 0
  | (b1, b2) :: rest => glvLoop t1 t2 rest (glvLoopBody t1 t2 0 b1 b2)

theorem glvLoopBody_eq (p1 p2 : G) (v : G) (b1 b2 : Nat)
    (h1 : b1 < 256) (h2 : b2 < 256) :
    glvLoopBody (projTableEntry p1) (projTableEntry p2) v b1 b2
      = 16 • v + b1 • p1 + b2 • p2 := by
  unfold glvLoopBody
  dsimp only
  rw [projSelectAndAddVartime_eq p1 _ _ (by omega),
    projSelectAndAddVartime_eq p2 _ _ (by omega), dub4_eq,
    projSelectAndAddVartime_eq p1 _ _ (by omega),
    projSelectAndAddVartime_eq p2 _ _ (by omega)]
  rw [smul_add, smul_add, smul_smul, smul_smul]
  conv_rhs => rw [show b1 = 16 * (b1 / 16) + b1 % 16 from by omega,
    show b2 = 16 * (b2 / 16) + b2 % 16 from by omega]
  rw [add_nsmul, add_nsmul]
  abel

theorem glvLoop_eq (p1 p2 : G) (bs : List (Nat × Nat))
    (hb : ∀ x ∈ bs, x.1 < 256 ∧ x.2 < 256) (v : G) :
    glvLoop (projTableEntry p1) (projTableEntry p2) bs v
      = 256 ^ bs.length • v + natOfBytesBE (bs.map Prod.fst) • p1
        + natOfBytesBE (bs.map Prod.snd) • p2 := by
  induction bs generalizing v with
  | nil => simp [glvLoop, natOfBytesBE]
  | cons x rest ih =>
    rcases x with ⟨b1, b2⟩
    have hx := hb (b1, b2) (List.mem_cons_self _ rest)
    rw [glvLoop, ih (fun y hy => hb y (List.mem_cons_of_mem _ hy)),
      glvLoopBody_eq p1 p2 _ b1 b2 hx.1 hx.2, dub4_eq]
    simp only [List.map_cons, natOfBytesBE_cons, List.length_map, List.length_cons]
    module

theorem glvEngine_eq (p1 p2 : G) (bs : List (Nat × Nat))
    (hb : ∀ x ∈ bs, x.1 < 256 ∧ x.2 < 256) :
    glvEngine (projTableEntry p1) (projTableEntry p2) bs
      = natOfBytesBE (bs.map Prod.fst) • p1 + natOfBytesBE (bs.map Prod.snd) • p2 := by
  cases bs with
  | nil => simp [glvEngine, natOfBytesBE]
  | cons x rest =>
    rcases x with ⟨b1, b2⟩
    have hx := hb (b1, b2) (List.mem_cons_self _ rest)
    rw [glvEngine, glvLoop_eq p1 p2 rest (fun y hy => hb y (List.mem_cons_of_mem _ hy)),
      glvLoopBody_eq p1 p2 0 b1 b2 hx.1 hx.2]
    simp only [List.map_cons, natOfBytesBE_cons, List.length_map, List.length_cons]
    module

/-- The byte-level core of `scalarMultVartimeGLV`: encode both (possibly
negated) half-scalars, skip the shared zero head from offset 15, and run
the dual window loop (or return the identity if everything was zero). -/
def glvCore (p1 p2 : G) (k1n k2n : Nat) : G :=
  let b1 := bytesBE 32 k1n
  let b2 := bytesBE 32 k2n
  let off := offSkip b1 b2 15 17
  if off = 32 then 0
  else glvEngine (projTableEntry p1) (projTableEntry p2)
    ((b1.drop off).zip (b2.drop off))

theorem glvCore_eq (p1 p2 : G) (k1n k2n : Nat)
    (h1 : k1n < 2 ^ 129) (h2 : k2n < 2 ^ 129) :
    glvCore p1 p2 k1n k2n = k1n • p1 + k2n • p2 := by
  unfold glvCore
  dsimp only
  have hlen1 : (bytesBE 32 k1n).length = 32 := bytesBE_length 32 k1n
  have hlen2 : (bytesBE 32 k2n).length = 32 := bytesBE_length 32 k2n
  have hsmall1 : k1n < 256 ^ 17 := lt_of_lt_of_le h1 (by norm_num)
  have hsmall2 : k2n < 256 ^ 17 := lt_of_lt_of_le h2 (by norm_num)
  set off := offSkip (bytesBE 32 k1n) (bytesBE 32 k2n) 15 17 with hoffd
  have hoffge : 15 ≤ off := offSkip_ge _ _ 17 15
  have hoffle : off ≤ 32 := offSkip_le _ _ 17 15
  have hz1 : ∀ i, i < off → (bytesBE 32 k1n).getD i 0 = 0 := by
    intro i hi
    by_cases h15 : i < 15
    · exact bytesBE_getD_zero 32 17 k1n hsmall1 (by omega) i (by omega)
    · exact (offSkip_zero _ _ 17 15 i (by omega) hi).1
  have hz2 : ∀ i, i < off → (bytesBE 32 k2n).getD i 0 = 0 := by
    intro i hi
    by_cases h15 : i < 15
    · exact bytesBE_getD_zero 32 17 k2n hsmall2 (by omega) i (by omega)
    · exact (offSkip_zero _ _ 17 15 i (by omega) hi).2
  have hval1 : natOfBytesBE ((bytesBE 32 k1n).drop off) = k1n := by
    rw [natOfBytesBE_drop_eq _ off (by omega) hz1,
      natOfBytesBE_bytesBE_of_lt 32 k1n (lt_of_lt_of_le h1 (by norm_num))]
  have hval2 : natOfBytesBE ((bytesBE 32 k2n).drop off) = k2n := by
    rw [natOfBytesBE_drop_eq _ off (by omega) hz2,
      natOfBytesBE_bytesBE_of_lt 32 k2n (lt_of_lt_of_le h2 (by norm_num))]
  by_cases hoff32 : off = 32
  · rw [if_pos hoff32]
    have hk1 : k1n = 0 := by
      have hnil : (bytesBE 32 k1n).drop off = [] := by
        rw [hoff32, ← hlen1]
        exact List.drop_length _
      rw [hnil] at hval1
      exact hval1.symm
    have hk2 : k2n = 0 := by
      have hnil : (bytesBE 32 k2n).drop off = [] := by
        rw [hoff32, ← hlen2]
        exact List.drop_length _
      rw [hnil] at hval2
      exact hval2.symm
    rw [hk1, hk2]
    simp
  · rw [if_neg hoff32]
    have hdlen : ((bytesBE 32 k1n).drop off).length = ((bytesBE 32 k2n).drop off).length := by
      rw [List.length_drop, List.length_drop, hlen1, hlen2]
    rw [glvEngine_eq p1 p2 _ (fun y hy => by
      have hmem := List.of_mem_zip hy
      exact ⟨bytesBE_lt 32 k1n y.1 (List.mem_of_mem_drop hmem.1),
        bytesBE_lt 32 k2n y.2 (List.mem_of_mem_drop hmem.2)⟩)]
    rw [List.map_fst_zip _ _ (le_of_eq hdlen), List.map_snd_zip _ _ (le_of_eq hdlen.symm),
      hval1, hval2]

/-- `Point.scalarMultVartimeGLV` (point_mul_glv.go): split the scalar,
conditionally negate each half (and its point) when above `n/2`, then run
the dual-table loop.  `phi` stands for `mulBeta` (the x-coordinate times
β endomorphism). -/
def scalarMultVartimeGLV (phi : G → G) (s : Nat) (p : G) : G :=
  let k1 := (splitVartime s).1
  let k2 := (splitVartime s).2
  let ctrl1 := scIsGreaterThanHalfN k1
  let ctrl2 := scIsGreaterThanHalfN k2
  glvCore (if ctrl1 = 1 then -p else p)
    (if ctrl2 = 1 then -(phi p) else phi p)
    (scConditionalNegate k1 ctrl1) (scConditionalNegate k2 ctrl2)

theorem scalarMultVartimeGLV_eq (phi : G → G) (p : G) (s : Nat) (hs : s < nVal)
    (hord : nVal • p = 0) (hphi : phi p = lamVal • p) :
    scalarMultVartimeGLV phi s p = s • p := by
  unfold scalarMultVartimeGLV
  dsimp only
  have hk1lt := splitVartime_k1_lt s hs
  have hk2n : (splitVartime s).2 < nVal := (splitVartime_lt s).2
  have hctrl1 : scIsGreaterThanHalfN (splitVartime s).1 = 0 := by
    unfold scIsGreaterThanHalfN
    rw [if_neg (show ¬ halfN < (splitVartime s).1 from by
      have : b2Val + a2Val ≤ halfN := by decide
      omega)]
  rw [hctrl1]
  rw [show scConditionalNegate (splitVartime s).1 0 = (splitVartime s).1 from rfl,
    if_neg (by omega)]
  have hcongr := splitVartime_congr s hs
  rcases splitVartime_k2_cases s with hA | ⟨hgt, hlt⟩
  · have hctrl2 : scIsGreaterThanHalfN (splitVartime s).2 = 0 := by
      unfold scIsGreaterThanHalfN
      rw [if_neg (show ¬ halfN < (splitVartime s).2 from by
        have : b2Val ≤ halfN := by decide
        omega)]
    rw [hctrl2]
    rw [show scConditionalNegate (splitVartime s).2 0 = (splitVartime s).2 from rfl,
      if_neg (by omega)]
    rw [glvCore_eq p (phi p) _ _
      (lt_of_lt_of_le hk1lt (by decide))
      (lt_of_lt_of_le hA (by decide))]
    rw [hphi, smul_smul, ← add_nsmul]
    apply nsmul_congr p hord
    rw [hcongr, Nat.mod_eq_of_lt hs]
  · have hctrl2 : scIsGreaterThanHalfN (splitVartime s).2 = 1 := by
      unfold scIsGreaterThanHalfN
      rw [if_pos (show halfN < (splitVartime s).2 from by
        have : halfN ≤ nVal - negB1Val := by decide
        omega)]
    rw [hctrl2]
    rw [if_pos rfl]
    have hneg : scConditionalNegate (splitVartime s).2 1 = nVal - (splitVartime s).2 := by
      show scNeg (splitVartime s).2 = _
      unfold scNeg
      rw [Nat.mod_eq_of_lt (by omega)]
    rw [hneg]
    rw [glvCore_eq p (-(phi p)) _ _
      (lt_of_lt_of_le hk1lt (by decide))
      (show nVal - (splitVartime s).2 < 2 ^ 129 from by
        have : nVal - negB1Val < (splitVartime s).2 := hgt
        have hb : negB1Val < 2 ^ 129 := by decide
        omega)]
    rw [hphi, smul_neg, smul_smul, ← sub_eq_add_neg, sub_eq_iff_eq_add, ← add_nsmul]
    apply nsmul_congr p hord
    have e2 : (splitVartime s).1 + (splitVartime s).2 * lamVal
        + (nVal - (splitVartime s).2) * lamVal
        = (splitVartime s).1 + nVal * lamVal := by
      rw [add_assoc, ← Nat.add_mul,
        show (splitVartime s).2 + (nVal - (splitVartime s).2) = nVal from by omega]
    calc (splitVartime s).1 % nVal
        = ((splitVartime s).1 + nVal * lamVal) % nVal := by
          rw [Nat.add_mul_mod_self_left]
      _ = ((splitVartime s).1 + (splitVartime s).2 * lamVal
            + (nVal - (splitVartime s).2) * lamVal) % nVal := by rw [e2]
      _ = (((splitVartime s).1 + (splitVartime s).2 * lamVal) % nVal
            + (nVal - (splitVartime s).2) * lamVal) % nVal := by
          rw [Nat.mod_add_mod]
      _ = (s + (nVal - (splitVartime s).2) * lamVal) % nVal := by rw [hcongr]

end GLVMul

section DSM

variable {G : Type} [AddCommGroup G]

/-- `Point.DoubleScalarMultBasepointVartime` (unnamed/part_002): the sum of
the vartime fixed-base multiply and the GLV vartime variable-base
multiply. -/
def DoubleScalarMultBasepointVartime (g : G) (phi : G → G) (u1 u2 : Nat) (p : G) : G :=
  scalarBaseMultVartime g u1 + scalarMultVartimeGLV phi u2 p

theorem nVal_lt_2_256 : nVal < 2 ^ 256 := by decide

/-- C5.  For scalars `u1, u2` and a point `p` of order dividing `n` whose
GLV endomorphism `phi` acts as multiplication by λ,
`DoubleScalarMultBasepointVartime` computes `u1·G + u2·P`, and agrees with
the constant-time `ScalarBaseMult` and `ScalarMult` combination. -/
theorem dsm_C5 (g p : G) (phi : G → G) (u1 u2 : Nat)
    (h1 : u1 < nVal) (h2 : u2 < nVal)
    (hord : nVal • p = 0) (hphi : phi p = lamVal • p) :
    DoubleScalarMultBasepointVartime g phi u1 u2 p = u1 • g + u2 • p ∧
    DoubleScalarMultBasepointVartime g phi u1 u2 p
      = ScalarBaseMult g u1 + ScalarMult u2 p := by
  have hu1 : u1 < 2 ^ 256 := lt_trans h1 nVal_lt_2_256
  have hu2 : u2 < 2 ^ 256 := lt_trans h2 nVal_lt_2_256
  have hbase := scalarBaseMultVartime_eq g u1 hu1
  have hglv := scalarMultVartimeGLV_eq phi p u2 h2 hord hphi
  constructor
  · unfold DoubleScalarMultBasepointVartime
    rw [hbase, hglv]
  · unfold DoubleScalarMultBasepointVartime
    rw [hbase, hglv, ScalarBaseMult_eq g u1 hu1, ScalarMult_eq u2 p hu2]

/-- Witness for C5 in the additive group `ZMod n` with `g = p = 1` and
`phi` the λ-multiplication. -/
theorem dsm_C5_witness :
    DoubleScalarMultBasepointVartime (1 : ZMod nVal) (fun x => lamVal • x) 2 3 1
      = 2 • (1 : ZMod nVal) + 3 • 1 ∧
    DoubleScalarMultBasepointVartime (1 : ZMod nVal) (fun x => lamVal • x) 2 3 1
      = ScalarBaseMult 1 2 + ScalarMult 3 1 :=
  dsm_C5 1 1 (fun x => lamVal • x) 2 3 (by decide) (by decide)
    (by rw [nsmul_eq_mul, ZMod.natCast_self, zero_mul]) rfl

end DSM


/-! ## Schnorr verification (secec/schnorr.go) -/

section Schnorr

variable {G : Type} [AddCommGroup G]

theorem scReduce_mod (v : Nat) (h : v < 2 * nVal) : (scReduce v).1 = v % nVal := by
  unfold scReduce
  by_cases hv : v < nVal
  · rw [if_pos hv, Nat.mod_eq_of_lt hv]
  · rw [if_neg hv, Nat.mod_eq_sub_mod (by omega), Nat.mod_eq_of_lt (by omega)]

theorem scNeg_smul (p : G) (hord : nVal • p = 0) (e : Nat) (he : e < nVal) :
    scNeg e • p = -(e • p) := by
  unfold scNeg
  by_cases h0 : e = 0
  · rw [h0, Nat.sub_zero, Nat.mod_self]
    simp
  · rw [Nat.mod_eq_of_lt (by omega)]
    have hz : (nVal - e) • p + e • p = 0 := by
      rw [← add_nsmul, show nVal - e + e = nVal from by omega, hord]
    exact eq_neg_of_add_eq_zero_left hz

variable [DecidableEq G]

/-- `parseSchnorrSignature` (secec/schnorr.go): length gates, `r < p`
(`field.BytesAreCanonical`), `s < n` (`NewScalarFromCanonicalBytes`),
challenge scalar via reducing `SetBytes`.  The BIP0340/challenge tagged
hash is abstracted as the value `challenge` of its 32-byte digest. -/
def parseSchnorrSignature (challenge : List Nat → Nat)
    (pkx msg sig : List Nat) : Option (Nat × Nat × List Nat) :=
  if msg.length ≠ 32 then none
  else if sig.length ≠ 64 then none
  else if pVal ≤ natOfBytesBE (sig.take 32) then none
  else
    match scSetCanonicalBytes (sig.drop 32) with
    | none => none
    | some s =>
      some (s, (scReduce (challenge (sig.take 32 ++ pkx ++ msg))).1, sig.take 32)

/-- `verifySchnorrSignatureR` (secec/schnorr.go): reject the identity, an
odd y-coordinate, or an x-coordinate not matching `r` bytes. -/
def verifySchnorrSignatureR (xBytesOf : G → List Nat) (yIsOddOf : G → Bool)
    (sigRX : List Nat) (R : G) : Bool :=
  if R = 0 then false
  else if yIsOddOf R = true then false
  else if xBytesOf R ≠ sigRX then false
  else true

/-- `SchnorrPublicKey.Verify` (secec/schnorr.go): length gates, parse,
`e.Negate`, `R = DoubleScalarMultBasepointVartime(s, -e, pk)`, final point
checks. -/
def Verify (g : G) (phi : G → G) (xBytesOf : G → List Nat)
    (yIsOddOf : G → Bool) (challenge : List Nat → Nat)
    (pkx : List Nat) (pkP : G) (msg sig : List Nat) : Bool :=
  if msg.length ≠ 32 then false
  else if sig.length ≠ 64 then false
  else
    match parseSchnorrSignature challenge pkx msg sig with
    | none => false
    | some (s, e, sigRX) =>
      verifySchnorrSignatureR xBytesOf yIsOddOf sigRX
        (DoubleScalarMultBasepointVartime g phi s (scNeg e) pkP)

/-- C3 (amended).  For every Schnorr public key, every message `m` **of
length 32**, and every 64-byte candidate signature, `Verify` returns true
iff `r < p`, `s < n`, and `R = s·G - e·pk` is not the identity, has even
y, and has x-bytes equal to `r_bytes` (`e` the challenge hash value mod
`n`).  The point group is abstract; `n·pk = 0` holds for every point of
the prime-order curve and `phi` is the GLV endomorphism. -/
theorem schnorr_verify_C3 (g pkP : G) (phi : G → G)
    (xBytesOf : G → List Nat) (yIsOddOf : G → Bool)
    (challenge : List Nat → Nat) (hch : ∀ x, challenge x < 2 ^ 256)
    (hord : nVal • pkP = 0) (hphi : phi pkP = lamVal • pkP)
    (pkx msg sig : List Nat) (hmsg : msg.length = 32) (hsig : sig.length = 64) :
    Verify g phi xBytesOf yIsOddOf challenge pkx pkP msg sig = true ↔
      (natOfBytesBE (sig.take 32) < pVal ∧
       natOfBytesBE (sig.drop 32) < nVal ∧
       natOfBytesBE (sig.drop 32) • g
         - (challenge (sig.take 32 ++ pkx ++ msg) % nVal) • pkP ≠ 0 ∧
       yIsOddOf (natOfBytesBE (sig.drop 32) • g
         - (challenge (sig.take 32 ++ pkx ++ msg) % nVal) • pkP) = false ∧
       xBytesOf (natOfBytesBE (sig.drop 32) • g
         - (challenge (sig.take 32 ++ pkx ++ msg) % nVal) • pkP) = sig.take 32) := by
  have hgate1 : ¬ msg.length ≠ 32 := fun h => h hmsg
  have hgate2 : ¬ sig.length ≠ 64 := fun h => h hsig
  unfold Verify
  rw [if_neg hgate1, if_neg hgate2]
  by_cases hr : pVal ≤ natOfBytesBE (sig.take 32)
  · have hparse : parseSchnorrSignature challenge pkx msg sig = none := by
      unfold parseSchnorrSignature
      rw [if_neg hgate1, if_neg hgate2, if_pos hr]
    rw [hparse]
    constructor
    · intro hcontra
      exact absurd hcontra (by simp)
    · rintro ⟨h1, -⟩
      exact absurd h1 (not_lt.mpr hr)
  · push_neg at hr
    by_cases hs : nVal ≤ natOfBytesBE (sig.drop 32)
    · have hparse : parseSchnorrSignature challenge pkx msg sig = none := by
        unfold parseSchnorrSignature scSetCanonicalBytes scReduce
        rw [if_neg hgate1, if_neg hgate2, if_neg (not_le.mpr hr),
          if_neg (show ¬ natOfBytesBE (sig.drop 32) < nVal from by omega)]
        rw [if_pos (show ((natOfBytesBE (sig.drop 32) - nVal, 1).2 : Nat) ≠ 0 from by simp)]
      rw [hparse]
      constructor
      · intro hcontra
        exact absurd hcontra (by simp)
      · rintro ⟨-, h2, -⟩
        exact absurd h2 (not_lt.mpr hs)
    · push_neg at hs
      have hparse : parseSchnorrSignature challenge pkx msg sig
          = some (natOfBytesBE (sig.drop 32),
              (scReduce (challenge (sig.take 32 ++ pkx ++ msg))).1, sig.take 32) := by
        unfold parseSchnorrSignature scSetCanonicalBytes scReduce
        rw [if_neg hgate1, if_neg hgate2, if_neg (not_le.mpr hr), if_pos hs]
        rw [if_neg (show ¬ ((natOfBytesBE (sig.drop 32), 0).2 : Nat) ≠ 0 from by simp)]
      rw [hparse]
      have heV : (scReduce (challenge (sig.take 32 ++ pkx ++ msg))).1
          = challenge (sig.take 32 ++ pkx ++ msg) % nVal := by
        apply scReduce_mod
        have := hch (sig.take 32 ++ pkx ++ msg)
        have h2n : 2 ^ 256 < 2 * nVal := by decide
        omega
      show verifySchnorrSignatureR xBytesOf yIsOddOf (sig.take 32)
          (DoubleScalarMultBasepointVartime g phi (natOfBytesBE (sig.drop 32))
            (scNeg ((scReduce (challenge (sig.take 32 ++ pkx ++ msg))).1)) pkP) = true ↔ _
      rw [heV]
      have hdsm : DoubleScalarMultBasepointVartime g phi (natOfBytesBE (sig.drop 32))
          (scNeg (challenge (sig.take 32 ++ pkx ++ msg) % nVal)) pkP
          = natOfBytesBE (sig.drop 32) • g
            - (challenge (sig.take 32 ++ pkx ++ msg) % nVal) • pkP := by
        unfold DoubleScalarMultBasepointVartime
        rw [scalarBaseMultVartime_eq g _ (lt_trans hs nVal_lt_2_256),
          scalarMultVartimeGLV_eq phi pkP _ (by
            unfold scNeg
            exact Nat.mod_lt _ nVal_pos) hord hphi,
          scNeg_smul pkP hord _ (Nat.mod_lt _ nVal_pos), ← sub_eq_add_neg]
      rw [hdsm]
      unfold verifySchnorrSignatureR
      split_ifs with h1 h2 h3
      · constructor
        · intro hcontra
          exact absurd hcontra (by simp)
        · rintro ⟨-, -, hRne, -, -⟩
          exact absurd h1 hRne
      · constructor
        · intro hcontra
          exact absurd hcontra (by simp)
        · rintro ⟨-, -, -, hodd, -⟩
          rw [hodd] at h2
          exact absurd h2 (by simp)
      · constructor
        · intro hcontra
          exact absurd hcontra (by simp)
        · rintro ⟨-, -, -, -, hxeq⟩
          exact absurd hxeq h3
      · constructor
        · intro _
          exact ⟨hr, hs, h1, by simpa using h2, not_not.mp h3⟩
        · intro _
          rfl


/-- C3 counterexample to the unamended claim: for the empty message (not
32 bytes) and a well-formed signature whose right-hand side conditions all
hold (in `ZMod n` with `g = pk = 1`, zero challenge hash, `r_bytes` the
encoding of 1 matched by `xBytesOf`, even y), `Verify` still returns
false, because of the message-length gate. -/
theorem schnorr_verify_C3_counterexample :
    Verify (1 : ZMod nVal) (fun x => lamVal • x) (fun _ => bytesBE 32 1)
        (fun _ => false) (fun _ => 0) [] 1 []
        (bytesBE 32 1 ++ bytesBE 32 1) = false ∧
    natOfBytesBE ((bytesBE 32 1 ++ bytesBE 32 1).take 32) < pVal ∧
    natOfBytesBE ((bytesBE 32 1 ++ bytesBE 32 1).drop 32) < nVal ∧
    natOfBytesBE ((bytesBE 32 1 ++ bytesBE 32 1).drop 32) • (1 : ZMod nVal)
      - ((0 % nVal : Nat)) • (1 : ZMod nVal) ≠ 0 ∧
    (false : Bool) = false ∧
    bytesBE 32 1 = (bytesBE 32 1 ++ bytesBE 32 1).take 32 := by
  refine ⟨rfl, by decide, by decide, ?_, rfl, by decide⟩
  have h1 : natOfBytesBE ((bytesBE 32 1 ++ bytesBE 32 1).drop 32) = 1 := by decide
  rw [h1, one_smul, Nat.zero_mod, zero_smul, sub_zero]
  decide

/-- Witness for C3 at a 32-byte message and the same instantiation. -/
theorem schnorr_verify_C3_witness :
    Verify (1 : ZMod nVal) (fun x => lamVal • x) (fun _ => bytesBE 32 1)
        (fun _ => false) (fun _ => 0) [] 1 (bytesBE 32 0)
        (bytesBE 32 1 ++ bytesBE 32 1) = true ↔
      (natOfBytesBE ((bytesBE 32 1 ++ bytesBE 32 1).take 32) < pVal ∧
       natOfBytesBE ((bytesBE 32 1 ++ bytesBE 32 1).drop 32) < nVal ∧
       natOfBytesBE ((bytesBE 32 1 ++ bytesBE 32 1).drop 32) • (1 : ZMod nVal)
         - ((0 % nVal : Nat)) • (1 : ZMod nVal) ≠ 0 ∧
       (false : Bool) = false ∧
       bytesBE 32 1 = (bytesBE 32 1 ++ bytesBE 32 1).take 32) :=
  schnorr_verify_C3 1 1 (fun x => lamVal • x) (fun _ => bytesBE 32 1)
    (fun _ => false) (fun _ => 0) (fun x => (by decide : (0 : Nat) < 2 ^ 256))
    (by rw [nsmul_eq_mul, ZMod.natCast_self, zero_mul]) rfl
    [] (bytesBE 32 0) (bytesBE 32 1 ++ bytesBE 32 1) (by decide) (by decide)

end Schnorr

/-! ## ECDSA signing (secec/ecdsa.go) and nonce domain separation -/

section ECDSA

/-- `hashToScalar` (secec/ecdsa.go): right-align short hashes into a
32-byte buffer (truncate long ones to their leftmost 32 bytes), then a
reducing `SetBytes`. -/
def hashToScalar (hash : List Nat) : Nat :=
  (scSetBytes (if hash.length < 32
    then List.replicate (32 - hash.length) 0 ++ hash
    else hash.take 32)).1

/-- `sampleRandomScalar` (secec/ecdsa.go): up to 8 attempts; each reads 32
bytes from the stream (`rng` indexed by a read cursor, value taken mod
2^256) and accepts iff `did_reduce = 0` and the scalar is nonzero. -/
def sampleRandomScalar (rng : Nat → Nat) : Nat → Nat → Option (Nat × Nat)
  | _, 0 => none
  | cursor, fuel + 1 =>
    if (scReduce (rng cursor % 2 ^ 256)).2 = 0 ∧ (scReduce (rng cursor % 2 ^ 256)).1 ≠ 0
    then some ((scReduce (rng cursor % 2 ^ 256)).1, cursor + 1)
    else sampleRandomScalar rng (cursor + 1) fuel

/-- The rejection-sampling loop of `sign` (secec/ecdsa.go): draw `k`,
compute `r = x(k·G) mod n` (retry if zero), then
`s = (r·d + e)·k⁻¹` (retry if zero).  `xCoord` abstracts the x-coordinate
bytes of `ScalarBaseMult(k)`; the unbounded `for` is given fuel. -/
def signLoop (rng xCoord : Nat → Nat) (d e : Nat) : Nat → Nat → Option (Nat × Nat)
  | _, 0 => none
  | cursor, fuel + 1 =>
    match sampleRandomScalar rng cursor 8 with
    | none => none
    | some (k, cursor') =>
      let r := (scSetBytes (bytesBE 32 (xCoord k % 2 ^ 256))).1
      if r = 0 then signLoop rng xCoord d e cursor' fuel
      else
        let kInv := scInvert k
        let s := scMul (scAdd (scMul r d) e) kInv
        if s = 0 then signLoop rng xCoord d e cursor' fuel
        else some (r, s)

/-- `sign` (secec/ecdsa.go): digest length gate, `e = hashToScalar(h)`,
the sampling loop, and the final low-s conditional negation
`s.ConditionalSelect(s, sNeg, s.IsGreaterThanHalfN())`. -/
def sign (rng xCoord : Nat → Nat) (d : Nat) (hBytes : List Nat) (fuel : Nat) :
    Option (Nat × Nat) :=
  if hBytes.length < 16 then none
  else
    match signLoop rng xCoord d (hashToScalar hBytes) 0 fuel with
    | none => none
    | some (r, s) => some (r, scConditionalSelect s (scNeg s) (scIsGreaterThanHalfN s))

theorem lowS_of_lt (s : Nat) (h : s < nVal) :
    scConditionalSelect s (scNeg s) (scIsGreaterThanHalfN s) ≤ halfN := by
  unfold scConditionalSelect scIsGreaterThanHalfN scNeg
  have hid : nVal = 2 * halfN + 1 := by decide
  by_cases hgt : halfN < s
  · rw [if_pos hgt, if_neg (show ¬ (1 : Nat) = 0 from by omega),
      Nat.mod_eq_of_lt (by omega)]
    omega
  · rw [if_neg hgt, if_pos rfl]
    omega

theorem signLoop_s_lt (rng xCoord : Nat → Nat) (d e : Nat) (fuel : Nat) :
    ∀ cursor r s, signLoop rng xCoord d e cursor fuel = some (r, s) → s < nVal := by
  induction fuel with
  | zero =>
    intro cursor r s h
    simp [signLoop] at h
  | succ fuel ih =>
    intro cursor r s h
    rw [signLoop] at h
    cases hsample : sampleRandomScalar rng cursor 8 with
    | none =>
      rw [hsample] at h
      exact absurd h (by simp)
    | some kc =>
      rcases kc with ⟨k, cursor2⟩
      rw [hsample] at h
      dsimp only at h
      split_ifs at h with h1 h2
      · exact ih cursor2 r s h
      · exact ih cursor2 r s h
      · simp only [Option.some.injEq, Prod.mk.injEq] at h
        rw [← h.2]
        exact Nat.mod_lt _ nVal_pos

/-- C2.  Whenever `sign` returns a signature `(r, s)` (no error), the
returned `s` is at most `n/2`: the final
`ConditionalSelect(s, -s, IsGreaterThanHalfN(s))` leaves `s` unchanged
when `s ≤ n/2` and replaces it by `n - s` otherwise, and both cases are
bounded by `halfN = (n-1)/2`. -/
theorem ecdsa_sign_low_s_C2 (rng xCoord : Nat → Nat) (d : Nat)
    (hBytes : List Nat) (fuel r s : Nat)
    (hsig : sign rng xCoord d hBytes fuel = some (r, s)) :
    s ≤ halfN := by
  unfold sign at hsig
  by_cases hlen : hBytes.length < 16
  · rw [if_pos hlen] at hsig
    exact absurd hsig (by simp)
  · rw [if_neg hlen] at hsig
    cases hloop : signLoop rng xCoord d (hashToScalar hBytes) 0 fuel with
    | none =>
      rw [hloop] at hsig
      exact absurd hsig (by simp)
    | some rs =>
      rcases rs with ⟨r0, s0⟩
      rw [hloop] at hsig
      dsimp only at hsig
      simp only [Option.some.injEq, Prod.mk.injEq] at hsig
      rw [← hsig.2]
      exact lowS_of_lt s0 (signLoop_s_lt rng xCoord d (hashToScalar hBytes) fuel 0 r0 s0 hloop)

/-- Witness for C2: with a constant-1 entropy stream and x-coordinate map,
`d = 1` and a 16-byte zero digest, signing succeeds with `(1, 1)` and the
returned `s` is below `n/2`. -/
theorem ecdsa_sign_low_s_C2_witness :
    sign (fun _ => 1) (fun _ => 1) 1 (List.replicate 16 0) 1 = some (1, 1) ∧
    (1 : Nat) ≤ halfN :=
  ⟨by decide,
    ecdsa_sign_low_s_C2 (fun _ => 1) (fun _ => 1) 1 (List.replicate 16 0) 1 1 1 (by decide)⟩

end ECDSA

section NonceDomainSep

def strBytes (s : String) : List Nat := s.toList.map Char.toNat

/-- Modelled from the spec: the customisation string of the
domain-separated nonce-derivation cSHAKE-256 instance is
`"Honorary Debian/Sony RNG mitigation:" || ctx` (the 4-argument
`mitigateDebianAndSony` exercised by ecdsa_k_test.go is not among the
provided sources; the 3-argument variant in ecdsa.go lacks `ctx`). -/
def mitCustomization (ctx : List Nat) : List Nat :=
  strBytes ("Honorary Debian/Sony RNG mitigation:") ++ ctx

/-- `domainSepECDSA` (secec, per spec and ecdsa_k_test.go). -/
def domainSepECDSA : List Nat := strBytes ("ECDSA-Sign")

/-- `domainSepSchnorr` (secec/schnorr.go). -/
def domainSepSchnorr : List Nat := strBytes ("BIP0340-Sign")

/-- Modelled from the spec: the 4-argument `mitigateDebianAndSony` seeds a
cSHAKE-256 instance (`xof`, abstracted as customisation → input → squeeze
index → byte stream) with the domain-separated customisation, writing the
key bytes, the fresh entropy, and the message hash. -/
def mitigateDebianAndSony (xof : List Nat → List Nat → Nat → Nat)
    (ctx keyBytes entropy hBytes : List Nat) : Nat → Nat :=
  fun i => xof (mitCustomization ctx) (keyBytes ++ entropy ++ hBytes) i

/-- C1.  The ECDSA and Schnorr nonce-derivation customisation strings
`"Honorary Debian/Sony RNG mitigation:" || ctx` differ (`ctx` is
`"ECDSA-Sign"` resp. `"BIP0340-Sign"`), so for any key bytes, entropy and
message hash, an XOF that separates the two customisations produces
different nonce streams for ECDSA and Schnorr signing. -/
theorem nonce_domain_sep_C1 (xof : List Nat → List Nat → Nat → Nat)
    (hxof : ∀ inp inp2 i, xof (mitCustomization domainSepECDSA) inp i
      ≠ xof (mitCustomization domainSepSchnorr) inp2 i)
    (keyBytes entropy hBytes : List Nat) (i : Nat) :
    mitCustomization domainSepECDSA ≠ mitCustomization domainSepSchnorr ∧
    mitigateDebianAndSony xof domainSepECDSA keyBytes entropy hBytes i
      ≠ mitigateDebianAndSony xof domainSepSchnorr keyBytes entropy hBytes i := by
  constructor
  · decide
  · unfold mitigateDebianAndSony
    exact hxof _ _ i

/-- Witness for C1: an XOF that keys on the ECDSA customisation string
separates the two streams at squeeze index 0. -/
theorem nonce_domain_sep_C1_witness :
    mitCustomization domainSepECDSA ≠ mitCustomization domainSepSchnorr ∧
    mitigateDebianAndSony
        (fun c _ _ => if c = mitCustomization domainSepECDSA then 0 else 1)
        domainSepECDSA [] [] [] 0
      ≠ mitigateDebianAndSony
        (fun c _ _ => if c = mitCustomization domainSepECDSA then 0 else 1)
        domainSepSchnorr [] [] [] 0 :=
  nonce_domain_sep_C1
    (fun c _ _ => if c = mitCustomization domainSepECDSA then 0 else 1)
    (fun inp inp2 i => (by decide :
      (if mitCustomization domainSepECDSA = mitCustomization domainSepECDSA
        then (0 : Nat) else 1)
      ≠ (if mitCustomization domainSepSchnorr = mitCustomization domainSepECDSA
        then (0 : Nat) else 1))) [] [] [] 0

end NonceDomainSep

end Secp256k1
